import Mathlib

/-!
Verification of the clause-boundary segmentation engine
(`app/services/clause_chunking.py`) against its natural-language
specification.

Shallow embedding conventions:
* Python floats are modelled as exact rationals (`ℚ`); the float literals in
  the source (`-1e9`, `0.6`, …) are all exactly representable and no claim
  under scrutiny depends on rounding.
* The two external ML collaborators are modelled as oracle functions over
  block indices: `cos : ℕ → ℕ → ℚ` stands for `np.dot(V[i], V[j])` on the
  embedding matrix, `ce : ℕ → ℕ → ℚ` for the cross-encoder score of the
  ordered text pair `(block[i].text, block[j].text)`.  Theorems quantify over
  these oracles, so they hold for every embedding matrix / re-ranker.
* Python `str` operations (`strip`, `isalpha`, `isupper`, `\s`) are modelled
  on `List Char`; the whitespace set and letter classes are the ASCII cores
  of Python's Unicode classes (plus NBSP and ideographic space), which is
  faithful for every input used in a concrete theorem below and immaterial
  to the parametric ones.
* Fallible code paths (the `blocks[None]` lookup the tie-break pass would
  perform when a reviewed position has no span head) are modelled with
  `Option`: `none` is an uncaught Python exception.
-/

set_option maxRecDepth 100000

/-- Whitespace characters recognised by Python's `str.strip` / regex `\s`
(ASCII whitespace plus NBSP and the ideographic space). -/
def pyWs (c : Char) : Bool :=
  c = ' ' ∨ c = '\t' ∨ c = '\n' ∨ c = '\r' ∨ c = '\x0b' ∨ c = '\x0c' ∨
  c = ' ' ∨ c = '　'

/-- `str.strip()` on a character list. -/
def pyStripList (l : List Char) : List Char :=
  ((l.dropWhile pyWs).reverse.dropWhile pyWs).reverse

/-- `str.strip()`. -/
def pyStrip (s : String) : String :=
  String.mk (pyStripList s.toList)

/-- The trailing character after `str.rstrip()`, if any. -/
def lastNonWs (s : String) : Option Char :=
  (s.toList.reverse.dropWhile pyWs).head?

/-- `ends_colon` from the source: `(s or "").rstrip().endswith((':','：'))`. -/
def endsColon (s : String) : Bool :=
  match lastNonWs s with
  | some c => c = ':' ∨ c = '：'
  | none => false

/-- `ends_soft` from the source: trailing soft punctuation after rstrip. -/
def endsSoft (s : String) : Bool :=
  match lastNonWs s with
  | some c => c = '，' ∨ c = ',' ∨ c = '；' ∨ c = ';' ∨ c = '、' ∨ c = '：' ∨ c = ':'
  | none => false

/-- The opener glyphs of the `pairs` dict in `unclosed_bracket`. -/
def brOpen : List Char := ['(', '（', '[', '【', '\x7b', '〈', '《', '<']

/-- The closer glyphs (`pairs.values()`) in `unclosed_bracket`. -/
def brClose : List Char := [')', '）', ']', '】', '\x7d', '〉', '》', '>']

/-- `unclosed_bracket` from the source: signed counter over paired bracket
glyphs, `True` iff it ends strictly positive. -/
def unclosedBracket (s : String) : Bool :=
  if s = "" then false
  else 0 < s.toList.foldl
    (fun (cnt : ℤ) ch =>
      if ch ∈ brOpen then cnt + 1 else if ch ∈ brClose then cnt - 1 else cnt) 0

/-- The per-character contribution to the signed bracket counter, as the spec
describes it (+1 on an opener, −1 on a closer, 0 otherwise). -/
def bracketDelta (c : Char) : ℤ :=
  if c ∈ brOpen then 1 else if c ∈ brClose then -1 else 0

/-- The spec's signed bracket counter of a whole string. -/
def bracketCount (s : String) : ℤ :=
  (s.toList.map bracketDelta).sum

/-- The `_BULLETS` set. -/
def bulletChars : List Char :=
  ['•', '‣', '⁃', '◦', '▪', '▫', '●', '○', '◆', '◇', '▶', '►', '▸', '▹', '▻',
   '▯', '▮', '■', '□', '－', '–', '—', '·', '∙', '・', '❖', '✦', '✧']

/-- `looks_bullet_char`: left-strip, then first char in the bullet set. -/
def looksBulletChar (s : String) : Bool :=
  match s.toList.dropWhile pyWs with
  | c :: _ => c ∈ bulletChars
  | [] => false

/-- Letters `[ivxlcdm]` of the lower-case Roman-numeral class in `_RE_ENUM`. -/
def romanLower : List Char := ['i', 'v', 'x', 'l', 'c', 'd', 'm']

/-- Letters `[IVXLCDM]` of the upper-case Roman-numeral class in `_RE_ENUM`. -/
def romanUpper : List Char := ['I', 'V', 'X', 'L', 'C', 'D', 'M']

/-- The circled-glyph class `[①-⑳⑴-⒇Ⓐ-Ⓩⓐ-ⓩ]` of `_RE_ENUM`. -/
def circledGlyph (c : Char) : Bool :=
  ('①' ≤ c ∧ c ≤ '⑳') ∨ ('⑴' ≤ c ∧ c ≤ '⒇') ∨
  ('Ⓐ' ≤ c ∧ c ≤ 'Ⓩ') ∨ ('ⓐ' ≤ c ∧ c ≤ 'ⓩ')

/-- Candidate lengths of the index token
`(?:\d{1,3}|[ivxlcdm]{1,8}|[IVXLCDM]{1,8}|[a-zA-Z])` at the head of `cs`;
trying every candidate is equivalent to the regex engine's backtracking. -/
def tokenLens (cs : List Char) : List ℕ :=
  List.range' 1 (min (cs.takeWhile Char.isDigit).length 3) ++
  List.range' 1 (min (cs.takeWhile (· ∈ romanLower)).length 8) ++
  List.range' 1 (min (cs.takeWhile (· ∈ romanUpper)).length 8) ++
  (match cs with
   | c :: _ => if c.isAlpha then [1] else []
   | [] => [])

/-- The mandatory trailer `(?:\s+|$)` of `_RE_ENUM`. -/
def enumTrailerOk (cs : List Char) : Bool :=
  match cs with
  | [] => true
  | c :: _ => pyWs c

/-- First `_RE_ENUM` alternative: optional half-width opener, `\s*`, index
token, `\s*`, half-width closer. -/
def enumAlt1 (cs : List Char) : Bool :=
  (match cs with
   | c :: rest => if c = '(' ∨ c = '[' ∨ c = '\x7b' then [rest, cs] else [cs]
   | [] => [cs]).any fun b =>
    let b2 := b.dropWhile pyWs
    (tokenLens b2).any fun l =>
      match (b2.drop l).dropWhile pyWs with
      | c :: rest => (c = ')' ∨ c = ']' ∨ c = '\x7d') ∧ enumTrailerOk rest
      | [] => false

/-- Second `_RE_ENUM` alternative: index token, `\s*`, then `.` or `、`. -/
def enumAlt2 (cs : List Char) : Bool :=
  (tokenLens cs).any fun l =>
    match (cs.drop l).dropWhile pyWs with
    | c :: rest => (c = '.' ∨ c = '、') ∧ enumTrailerOk rest
    | [] => false

/-- Third `_RE_ENUM` alternative: a single circled glyph. -/
def enumAlt3 (cs : List Char) : Bool :=
  match cs with
  | c :: rest => circledGlyph c ∧ enumTrailerOk rest
  | [] => false

/-- `_RE_ENUM` matched at the start of the string (the pattern is anchored
with `^`, so `.search` and `.match` coincide). -/
def reEnumMatch (s : String) : Bool :=
  let cs := s.toList.dropWhile pyWs
  enumAlt1 cs || enumAlt2 cs || enumAlt3 cs

/-- `is_enum_like` from the source. -/
def isEnumLike (s : String) : Bool :=
  if s = "" then false
  else reEnumMatch s || looksBulletChar s

/-- The `Block` dataclass (text, indent, page number, optional bbox). -/
structure Block where
  text : String
  indent : ℤ
  pageNum : ℤ
  bbox : Option (ℤ × ℤ × ℤ × ℤ) := none
  deriving DecidableEq, Repr

/-- A default block, standing for an out-of-range list access. -/
def defBlock : Block := ⟨"", 0, 0, none⟩

/-- Python letter test, ASCII core of `str.isalpha`. -/
def pyIsAlpha (c : Char) : Bool := c.isAlpha

/-- Python uppercase test, ASCII core of `str.isupper`. -/
def pyIsUpper (c : Char) : Bool := c.isUpper

/-- The Chinese-numeral tail pattern `[一二三四五六七八九十]+\s*[、.．)]?$`
used by `is_heading_shape` (searched, hence: some suffix matches). -/
def cnNumTail (l : List Char) : Bool :=
  let r := l.reverse
  let r1 := match r with
    | c :: rest => if c = '、' ∨ c = '.' ∨ c = '．' ∨ c = ')' then rest else r
    | [] => r
  match r1.dropWhile pyWs with
  | c :: _ => c ∈ ['一', '二', '三', '四', '五', '六', '七', '八', '九', '十']
  | [] => false

/-- Does the (already stripped) text end with `:` or `：`
(`t.endswith((':','：'))`)? -/
def endsColonRaw (l : List Char) : Bool :=
  match l.getLast? with
  | some c => c = ':' ∨ c = '：'
  | none => false

/-- `is_heading_shape` from the source, with the same branch structure. -/
def isHeadingShape (b : Block) : Bool :=
  let t := pyStripList b.text.toList
  if t = [] then false
  else if t.length ≤ 8 ∧ (endsColonRaw t ∨ cnNumTail t) then true
  else if t.length ≤ 60 then
    if endsColonRaw t then true
    else if reEnumMatch (String.mk t) ∧ t.length ≤ 40 then true
    else if (t.filter pyIsAlpha).length ≠ 0 then
      if (((t.filter pyIsAlpha).filter pyIsUpper).length : ℚ) /
          (max 1 (t.filter pyIsAlpha).length : ℚ) ≥ 0.6 then true else false
    else false
  else false

/-- The configuration dictionary of `_clause_chunk` (floats as exact
rationals; `batch_size` only feeds the embedding batch call). -/
structure Cfg where
  indentJump : ℚ
  wEnum : ℚ
  wIndentBack : ℚ
  wIndentForward : ℚ
  wLead : ℚ
  wHeading : ℚ
  wSoft : ℚ
  wSemStart : ℚ
  wSemCont : ℚ
  semMarginPos : ℚ
  semMarginNeg : ℚ
  emaAlpha : ℚ
  shortLenBias : ℚ
  shortLenContBonus : ℚ
  biasStart : ℚ
  penSS : ℚ
  penCC : ℚ
  penSC : ℚ
  penCS : ℚ
  tieMargin : ℚ
  ceDeltaStart : ℚ
  ceDeltaCont : ℚ
  batchSize : ℕ
  deriving DecidableEq

/-- The default configuration written inline in `_clause_chunk`. -/
def defaultCfg : Cfg where
  indentJump := 16
  wEnum := 1.5
  wIndentBack := 1.6
  wIndentForward := 0.4
  wLead := 1.0
  wHeading := 0.8
  wSoft := 1.0
  wSemStart := 1.0
  wSemCont := 0.8
  semMarginPos := 0.10
  semMarginNeg := -0.06
  emaAlpha := 0.30
  shortLenBias := 8
  shortLenContBonus := 0.6
  biasStart := -0.8
  penSS := -0.6
  penCC := 0.1
  penSC := 0
  penCS := 0
  tieMargin := 0.25
  ceDeltaStart := -0.05
  ceDeltaCont := 0.05
  batchSize := 64

/-- `config_map["contract"]` merged over the defaults (`{…} | cfg`). -/
def contractCfg : Cfg :=
  { defaultCfg with
    wHeading := 1.2, wIndentBack := 1.8, wEnum := 1.5,
    wSemStart := 1.0, wSemCont := 0.8, semMarginNeg := -0.06,
    semMarginPos := 0.10, penSS := -0.6, penCC := 0.15 }

/-- `config_map["summary"]` merged over the defaults. -/
def summaryCfg : Cfg :=
  { defaultCfg with
    wHeading := 1.0, wIndentBack := 1.2, wEnum := 1.6,
    wSemStart := 1.2, wSemCont := 0.6, semMarginNeg := -0.04,
    semMarginPos := 0.12, penSS := -0.8, penCC := 0.1 }

/-- `config_map["single"]` merged over the defaults. -/
def singleCfg : Cfg :=
  { defaultCfg with
    wHeading := 0.6, wIndentBack := 1.0, wEnum := 1.2,
    wSemStart := 0.6, wSemCont := 1.0, semMarginNeg := -0.08,
    semMarginPos := 0.06, penSS := -1.2, penCC := 0.2,
    shortLenContBonus := 0.8, emaAlpha := 0.35 }

/-- `config_map.get(mode, config_map["contract"])` from `chunk_blocks`:
an unrecognised profile name falls back to the contract weights. -/
def cfgFor (mode : String) : Cfg :=
  if mode = "contract" then contractCfg
  else if mode = "summary" then summaryCfg
  else if mode = "single" then singleCfg
  else contractCfg

/-- The float `-1e9` sentinel initialising `dp[0][CONTINUE]`. -/
def negInf : ℚ := -1000000000

/-- Rolling state of the local-scoring pass in `_clause_chunk`
(`prev_idx`, `head_idx`, `d_prev`, and the score arrays built so far). -/
structure ScanState where
  prevIdx : Option ℕ
  headIdx : Option ℕ
  dPrev : ℚ
  accStart : List ℚ
  accCont : List ℚ

/-- One iteration of the local-scoring loop (`for i in range(n)` body). -/
def scoreStep (cfg : Cfg) (cos : ℕ → ℕ → ℚ) (blocks : List Block)
    (st : ScanState) (i : ℕ) : ScanState :=
  let bi := blocks.getD i defBlock
  let sS1 : ℚ :=
    (if isEnumLike bi.text then cfg.wEnum else 0) +
    (match st.prevIdx with
     | none => 0
     | some p =>
       let bp := blocks.getD p defBlock
       let dInd : ℚ := (bp.indent : ℚ) - (bi.indent : ℚ)
       (if dInd ≥ cfg.indentJump then cfg.wIndentBack
        else if -dInd ≥ cfg.indentJump then cfg.wIndentForward else 0) +
       (if endsColon bp.text ∧ isEnumLike bi.text then cfg.wLead else 0)) +
    (if isHeadingShape bi then cfg.wHeading else 0)
  let sC1 : ℚ :=
    match st.prevIdx with
    | none => 0
    | some p =>
      let bp := blocks.getD p defBlock
      if endsSoft bp.text ∨ unclosedBracket bp.text then cfg.wSoft else 0
  let sh : ℚ := match st.headIdx with | none => 0 | some h => cos h i
  let sp : ℚ := match st.prevIdx with | none => 0 | some p => cos p i
  let margin := sp - sh
  let sS2 := sS1 + (if margin ≤ cfg.semMarginNeg then cfg.wSemStart else 0)
  let sC2 := sC1 +
    (if margin ≤ cfg.semMarginNeg then 0
     else if margin ≥ cfg.semMarginPos then cfg.wSemCont else 0)
  let sC3 := sC2 +
    (if ((pyStripList bi.text.toList).length : ℚ) < cfg.shortLenBias then
      cfg.shortLenContBonus else 0)
  let dRaw := sS2 - sC3
  let d := if 0 < cfg.emaAlpha ∧ cfg.emaAlpha ≤ 1 then
    cfg.emaAlpha * st.dPrev + (1 - cfg.emaAlpha) * dRaw else dRaw
  let indentBackJump : Bool :=
    match st.prevIdx with
    | none => false
    | some p =>
      ((blocks.getD p defBlock).indent : ℚ) - (bi.indent : ℚ) ≥ cfg.indentJump
  let newHead : Option ℕ :=
    if i = 0 ∨ indentBackJump = true ∨ isHeadingShape bi then some i
    else if d ≥ 2 * cfg.semMarginPos then st.headIdx
    else if d ≤ 2 * cfg.semMarginNeg then some i
    else st.headIdx
  ⟨some i, newHead, d, st.accStart ++ [sS2], st.accCont ++ [sC3]⟩

/-- The full local-scoring pass: raw `s_start` / `s_cont` arrays
(before the start bias and the forced first-block boost). -/
def localScores (cfg : Cfg) (cos : ℕ → ℕ → ℚ) (blocks : List Block) :
    List ℚ × List ℚ :=
  let st := (List.range blocks.length).foldl (scoreStep cfg cos blocks)
    ⟨none, none, 0, [], []⟩
  (st.accStart, st.accCont)

/-- The transition penalties of the dynamic program. -/
structure Pens where
  penSS : ℚ
  penCC : ℚ
  penSC : ℚ
  penCS : ℚ
  deriving DecidableEq

/-- The DP table of `_clause_chunk`, one row per position:
first component `dp[i][START]`, second `dp[i][CONTINUE]`.  Row 0 is
`(s_start[0], -1e9)`; the comparisons `cand0 >= cand1` mirror the source. -/
def dpF (P : Pens) (sS sC : ℕ → ℚ) : ℕ → ℚ × ℚ
  | 0 => (sS 0, negInf)
  | i + 1 =>
    let d := dpF P sS sC i
    let c00 := d.1 + P.penSS + sS (i + 1)
    let c01 := d.2 + P.penCS + sS (i + 1)
    let c10 := d.1 + P.penSC + sC (i + 1)
    let c11 := d.2 + P.penCC + sC (i + 1)
    ((if c00 ≥ c01 then c00 else c01), (if c10 ≥ c11 then c10 else c11))

/-- The backpointer `bt[i][c]` (for `i ≥ 1`): 0 if the cell was reached from
START at `i-1`, 1 if from CONTINUE, with the source's `>=` tie preference. -/
def btF (P : Pens) (sS sC : ℕ → ℚ) (i c : ℕ) : ℕ :=
  let d := dpF P sS sC (i - 1)
  if c = 0 then
    (if d.1 + P.penSS + sS i ≥ d.2 + P.penCS + sS i then 0 else 1)
  else
    (if d.1 + P.penSC + sC i ≥ d.2 + P.penCC + sC i then 0 else 1)

/-- Backpointer traceback: the label list for positions `0..i` given the
chosen state `c` at position `i`. -/
def decodeFrom (bt : ℕ → ℕ → ℕ) : ℕ → ℕ → List ℕ
  | 0, c => [c]
  | i + 1, c => decodeFrom bt i (bt (i + 1) c) ++ [c]

/-- The decoded label sequence of the DP on `n` positions
(`0 = START`, `1 = CONTINUE`), from `argmax(dp[n-1][START], dp[n-1][CONTINUE])`
with the source's `>=` preference for START. -/
def dpStates (P : Pens) (sS sC : ℕ → ℚ) (n : ℕ) : List ℕ :=
  let d := dpF P sS sC (n - 1)
  decodeFrom (btF P sS sC) (n - 1) (if d.1 ≥ d.2 then 0 else 1)

/-- First pass of the tie-break section: `head_of[i]` = index of the first
block of the span containing `i` under the given labeling (the running
`head_idx` after processing position `i`). -/
def headOfGo : Option ℕ → ℕ → List ℕ → List (Option ℕ)
  | _, _, [] => []
  | h, i, s :: rest =>
    let h' := if s = 0 then some i else h
    h' :: headOfGo h' (i + 1) rest

/-- The `head_of` array of the tie-break pass. -/
def headOfList (states : List ℕ) : List (Option ℕ) :=
  headOfGo none 0 states

/-- The value of the running `head_idx` after a labeling pass (the tie-break
review loop starts from the value `head_idx` retained from the first pass). -/
def runHead : Option ℕ → ℕ → List ℕ → Option ℕ
  | h, _, [] => h
  | h, i, s :: rest => runHead (if s = 0 then some i else h) (i + 1) rest

/-- The review loop of the tie-break pass: walks the labeling, keeps the
running `head_idx`, and collects a triple `(i-1, head_of[i], i)` for every
position `i ≥ 1` with a live head whose score gap is within the tie margin. -/
def reviewGo (tm : ℚ) (sS sC : ℕ → ℚ) (hOf : ℕ → Option ℕ) :
    Option ℕ → ℕ → List ℕ → List (ℕ × Option ℕ × ℕ)
  | _, _, [] => []
  | h, i, s :: rest =>
    let h' := if s = 0 then some i else h
    if i = 0 then reviewGo tm sS sC hOf h' (i + 1) rest
    else if h' = none then reviewGo tm sS sC hOf h' (i + 1) rest
    else if |sS i - sC i| ≤ tm then
      (i - 1, hOf i, i) :: reviewGo tm sS sC hOf h' (i + 1) rest
    else reviewGo tm sS sC hOf h' (i + 1) rest

/-- The `to_review` list of the tie-break pass. -/
def reviewTriples (tm : ℚ) (sS sC : ℕ → ℚ) (states : List ℕ) :
    List (ℕ × Option ℕ × ℕ) :=
  reviewGo tm sS sC (fun i => (headOfList states).getD i none)
    (runHead none 0 states) 0 states

/-- Applying the cross-encoder verdicts: for each reviewed triple the
re-ranker scores `(block[prev], block[cur])` against `(block[head], block[cur])`
and the label at `cur` is forced to START / CONTINUE / left alone.  A `none`
head is the `blocks[None]` lookup Python would crash on. -/
def applyReview (ds dc : ℚ) (ce : ℕ → ℕ → ℚ) :
    List ℕ → List (ℕ × Option ℕ × ℕ) → Option (List ℕ)
  | st, [] => some st
  | _, (_, none, _) :: _ => none
  | st, (p, some hIdx, c) :: rest =>
    applyReview ds dc ce
      (if ce p c - ce hIdx c ≤ ds then st.set c 0
       else if ce p c - ce hIdx c ≥ dc then st.set c 1 else st) rest

/-- The whole optional tie-break refinement applied to a labeling. -/
def tieBreakPass (cfg : Cfg) (ce : ℕ → ℕ → ℚ) (sS sC : ℕ → ℚ)
    (states : List ℕ) : Option (List ℕ) :=
  applyReview cfg.ceDeltaStart cfg.ceDeltaCont ce states
    (reviewTriples cfg.tieMargin sS sC states)

/-- Span assembly from a labeling (`cur_span = [0]`, then every START opens a
new span); iterates over positions `1..n-1`. -/
def buildSpansGo (states : ℕ → ℕ) :
    List ℕ → List ℕ → List (List ℕ) → List (List ℕ)
  | [], cur, acc => acc ++ [cur]
  | i :: rest, cur, acc =>
    if states i = 0 then buildSpansGo states rest [i] (acc ++ [cur])
    else buildSpansGo states rest (cur ++ [i]) acc

/-- The raw span list decoded from a labeling of `n ≥ 1` blocks. -/
def buildSpans (states : ℕ → ℕ) (n : ℕ) : List (List ℕ) :=
  buildSpansGo states (List.range' 1 (n - 1)) [0] []

/-- One span's contribution to the heading strong-split of
`_post_fix_spans`: a span of length ≥ 2 whose first block is heading-shaped
and whose second block is not enum-like is split into the singleton heading
plus the remainder. -/
def headingSplitOne (blocks : List Block) (span : List ℕ) : List (List ℕ) :=
  match span with
  | a :: b :: rest =>
    if isHeadingShape (blocks.getD a defBlock) ∧
        ¬ isEnumLike (blocks.getD b defBlock).text then
      [[a], b :: rest]
    else [a :: b :: rest]
  | _ => [span]

/-- The heading strong-split applied to the whole span list. -/
def headingSplit (blocks : List Block) (spans : List (List ℕ)) :
    List (List ℕ) :=
  spans.flatMap (headingSplitOne blocks)

/-- `merged[-1].extend(span)`: append the elements to the last span.  The
empty case is unreachable in the merge loop (shown in the proofs below);
Python would raise there. -/
def extendLast : List (List ℕ) → List ℕ → List (List ℕ)
  | [], s => [s]
  | m :: rest, s =>
    match rest with
    | [] => [m ++ s]
    | m2 :: r2 => m :: extendLast (m2 :: r2) s

/-- `left_sim` of the merge loop: cosine of the singleton's head with
`spans[i-1][0]`, or the `-1.0` sentinel when there is no left neighbour. -/
def leftSim (cos : ℕ → ℕ → ℚ) (hi : ℕ) : Option ℕ → ℚ
  | none => -1
  | some lh => cos hi lh

/-- `right_sim` of the merge loop: cosine of the singleton's head with
`spans[i+1][0]`, or the `-1.0` sentinel when there is no right neighbour. -/
def rightSim (cos : ℕ → ℕ → ℚ) (hi : ℕ) : List (List ℕ) → ℚ
  | [] => -1
  | r :: _ => cos hi (r.headD 0)

/-- The short-span merge loop of `_post_fix_spans`.  `prevHead` is
`spans[i-1][0]` (defined for `i ≥ 1`), `cur` the current span (which absorbs a
right-merged singleton), `rest` the untouched tail of the span list. -/
def mergeGo (cos : ℕ → ℕ → ℚ) :
    Option ℕ → List (List ℕ) → List ℕ → List (List ℕ) → List (List ℕ)
  | prevHead, merged, cur, rest =>
    if cur.length = 1 then
      if max (leftSim cos (cur.headD 0) prevHead)
          (rightSim cos (cur.headD 0) rest) ≥ 0.60 then
        if leftSim cos (cur.headD 0) prevHead ≥
            rightSim cos (cur.headD 0) rest ∧ prevHead.isSome then
          match rest with
          | [] => extendLast merged cur
          | nxt :: rest' =>
            mergeGo cos (some (cur.headD 0)) (extendLast merged cur) nxt rest'
        else
          match rest with
          | [] => merged
          | nxt :: rest' =>
            mergeGo cos (some (cur.headD 0)) merged (cur ++ nxt) rest'
      else
        match rest with
        | [] => merged ++ [cur]
        | nxt :: rest' =>
          mergeGo cos (some (cur.headD 0)) (merged ++ [cur]) nxt rest'
    else
      match rest with
      | [] => merged ++ [cur]
      | nxt :: rest' =>
        mergeGo cos (some (cur.headD 0)) (merged ++ [cur]) nxt rest'

/-- The short-span merge, applied only when there are at least two spans. -/
def mergeShort (cos : ℕ → ℕ → ℚ) (spans : List (List ℕ)) : List (List ℕ) :=
  match spans with
  | [] => []
  | s :: rest => mergeGo cos none [] s rest

/-- `_post_fix_spans`: heading strong-split, then (if ≥ 2 spans remain) the
single left-to-right short-span merge sweep. -/
def postFixSpans (cos : ℕ → ℕ → ℚ) (blocks : List Block)
    (spans : List (List ℕ)) : List (List ℕ) :=
  if spans = [] then spans
  else
    let fixed := headingSplit blocks spans
    if 2 ≤ fixed.length then mergeShort cos fixed else fixed

/-- The result dictionary `{"spans": …, "texts": …}`. -/
structure ChunkResult where
  spans : List (List ℕ)
  texts : List String
  deriving DecidableEq

/-- The whitespace-only filter at the top of `_clause_chunk`. -/
def filteredBlocks (blocks : List Block) : List Block :=
  blocks.filter fun b => !(pyStrip b.text == "")

/-- The biased `s_start` array as a total function: raw local score plus the
global `bias_start`, plus the forced `+10.0` at index 0. -/
def pipelineSS (cfg : Cfg) (cos : ℕ → ℕ → ℚ) (fb : List Block) (i : ℕ) : ℚ :=
  (localScores cfg cos fb).1.getD i 0 + cfg.biasStart +
    (if i = 0 then 10 else 0)

/-- The `s_cont` array as a total function. -/
def pipelineSC (cfg : Cfg) (cos : ℕ → ℕ → ℚ) (fb : List Block) (i : ℕ) : ℚ :=
  (localScores cfg cos fb).2.getD i 0

/-- The penalties taken from a configuration. -/
def pensOf (cfg : Cfg) : Pens :=
  ⟨cfg.penSS, cfg.penCC, cfg.penSC, cfg.penCS⟩

/-- The DP labeling produced by the pipeline on the filtered blocks. -/
def pipelineStates (cfg : Cfg) (cos : ℕ → ℕ → ℚ) (fb : List Block) : List ℕ :=
  dpStates (pensOf cfg) (pipelineSS cfg cos fb) (pipelineSC cfg cos fb)
    fb.length

/-- The labeling after the optional cross-encoder tie-break. -/
def pipelineStatesCE (cfg : Cfg) (cos ce : ℕ → ℕ → ℚ) (useCE : Bool)
    (fb : List Block) : Option (List ℕ) :=
  let states := pipelineStates cfg cos fb
  if useCE then
    tieBreakPass cfg ce (pipelineSS cfg cos fb) (pipelineSC cfg cos fb) states
  else some states

/-- `"\n".join(...)` of the blocks of one span. -/
def spanText (fb : List Block) (span : List ℕ) : String :=
  String.intercalate "\n" (span.map fun j => (fb.getD j defBlock).text)

/-- `_clause_chunk`: filter, score, decode, optionally tie-break, build spans,
post-fix, join texts.  `none` models an uncaught exception. -/
def clauseChunk (cos ce : ℕ → ℕ → ℚ) (useCE : Bool) (cfg : Cfg)
    (blocks : List Block) : Option ChunkResult :=
  let fb := filteredBlocks blocks
  let n := fb.length
  if n = 0 then some ⟨[], []⟩
  else
    match pipelineStatesCE cfg cos ce useCE fb with
    | none => none
    | some states =>
      let spans := buildSpans (fun i => states.getD i 0) n
      let fixedSpans := postFixSpans cos fb spans
      some ⟨fixedSpans, fixedSpans.map (spanText fb)⟩

/-- `chunk_blocks`: profile lookup with silent fallback to "contract",
then the core algorithm. -/
def chunkBlocks (cos ce : ℕ → ℕ → ℚ) (blocks : List Block) (mode : String)
    (useCE : Bool) : Option ChunkResult :=
  clauseChunk cos ce useCE (cfgFor mode) blocks

/-- Per-position emission score of a label (`0` = START, any other value =
CONTINUE), as the DP charges it. -/
def sAt (sS sC : ℕ → ℚ) (i c : ℕ) : ℚ :=
  if c = 0 then sS i else sC i

/-- Transition penalty between consecutive labels. -/
def penAt (P : Pens) (a b : ℕ) : ℚ :=
  if a = 0 then (if b = 0 then P.penSS else P.penSC)
  else (if b = 0 then P.penCS else P.penCC)

/-- Score of the suffix of a label sequence from position `i`, given the
label `prev` at position `i-1`: transition penalty plus emission score of
each remaining label. -/
def tailScore (P : Pens) (sS sC : ℕ → ℚ) : ℕ → ℕ → List ℕ → ℚ
  | _, _, [] => 0
  | i, prev, c :: rest =>
    penAt P prev c + sAt sS sC i c + tailScore P sS sC (i + 1) c rest

/-- The total score of a label sequence as the claim describes it: the sum
of the chosen per-position score at each block plus the transition penalty
between each consecutive label pair. -/
def totalScore (P : Pens) (sS sC : ℕ → ℚ) : List ℕ → ℚ
  | [] => 0
  | c :: rest => sAt sS sC 0 c + tailScore P sS sC 1 c rest

/-- The sentinel-adjusted score the DP actually maximises: a sequence
opening with CONTINUE is charged the finite `-1e9` cell value instead of
its position-0 score. -/
def adjScore (P : Pens) (sS sC : ℕ → ℚ) : List ℕ → ℚ
  | [] => 0
  | c :: rest =>
    (if c = 0 then sS 0 else negInf) + tailScore P sS sC 1 c rest

/-- Magnitude bound on a single transition penalty. -/
def maxPen (P : Pens) : ℚ :=
  max (max |P.penSS| |P.penCC|) (max |P.penSC| |P.penCS|)

/-- Magnitude bound on the score of any `m`-step suffix starting at
position `i`. -/
def tailBound (P : Pens) (sS sC : ℕ → ℚ) : ℕ → ℕ → ℚ
  | _, 0 => 0
  | i, m + 1 => maxPen P + max |sS i| |sC i| + tailBound P sS sC (i + 1) m

/-! ## Bracket counting (C7) -/

theorem bracketFold (l : List Char) (c : ℤ) :
    l.foldl
      (fun (cnt : ℤ) ch =>
        if ch ∈ brOpen then cnt + 1 else if ch ∈ brClose then cnt - 1 else cnt)
      c = c + (l.map bracketDelta).sum := by
  induction l generalizing c with
  | nil => simp
  | cons ch t ih =>
    simp only [List.foldl_cons, List.map_cons, List.sum_cons, ih, bracketDelta]
    split_ifs <;> ring

/-- C7 is refuted on its first example: `"including (a) the Buyer"` is
bracket-balanced (`(a)` closes), so `unclosed_bracket` returns `False`,
while the claim asserts `true` there. -/
theorem claim7_counterexample :
    unclosedBracket "including (a) the Buyer" = false := by
  decide

/-- C7 (amended): `hasUnclosedBracket` returns **false** on
`"including (a) the Buyer"` and false on
`"including (a) the Buyer (defined above)"`; in general it returns true
exactly when the signed counter over the paired bracket glyphs ends strictly
positive. -/
theorem claim7_bracket_counter :
    unclosedBracket "including (a) the Buyer" = false ∧
    unclosedBracket "including (a) the Buyer (defined above)" = false ∧
    ∀ s : String, unclosedBracket s = true ↔ 0 < bracketCount s := by
  refine ⟨by decide, by decide, fun s => ?_⟩
  unfold unclosedBracket bracketCount
  rcases eq_or_ne s "" with rfl | hs
  · simp
  · rw [if_neg hs, bracketFold]
    simp

/-! ## Heading shape (C8) -/

/-- C8 is refuted by a 61-character all-uppercase block: every character is
an uppercase letter (so the uppercase share is 1 ≥ 0.6), yet
`is_heading_shape` returns `False` because the uppercase-share branch sits
inside the `len(t) <= 60` guard. -/
theorem claim8_counterexample :
    ((pyStripList (String.mk (List.replicate 61 'A')).toList).filter
        pyIsAlpha).length ≠ 0 ∧
    ((((pyStripList (String.mk (List.replicate 61 'A')).toList).filter
          pyIsAlpha).filter pyIsUpper).length : ℚ) /
        (((pyStripList (String.mk (List.replicate 61 'A')).toList).filter
          pyIsAlpha).length : ℚ) ≥ 0.6 ∧
    isHeadingShape ⟨String.mk (List.replicate 61 'A'), 0, 0, none⟩ = false := by
  refine ⟨by decide, by with_unfolding_all decide, by decide⟩

/-- C8 (amended): the uppercase-share rule holds only for blocks whose
trimmed text is at most 60 characters long: if such a text has at least one
letter and its uppercase share among letters is ≥ 0.6, `is_heading_shape`
returns true. -/
theorem claim8_upper_shape (b : Block)
    (hlen : (pyStripList b.text.toList).length ≤ 60)
    (hne : ((pyStripList b.text.toList).filter pyIsAlpha).length ≠ 0)
    (hup : ((((pyStripList b.text.toList).filter pyIsAlpha).filter
        pyIsUpper).length : ℚ) /
        (((pyStripList b.text.toList).filter pyIsAlpha).length : ℚ) ≥ 0.6) :
    isHeadingShape b = true := by
  have ht : pyStripList b.text.toList ≠ [] := by
    intro h
    rw [h] at hne
    simp at hne
  have hmax : (max (1 : ℚ) (((pyStripList b.text.toList).filter
        pyIsAlpha).length : ℚ))
      = (((pyStripList b.text.toList).filter pyIsAlpha).length : ℚ) := by
    have h1 : 1 ≤ ((pyStripList b.text.toList).filter pyIsAlpha).length :=
      Nat.one_le_iff_ne_zero.mpr hne
    have h2 : (1 : ℚ) ≤
        (((pyStripList b.text.toList).filter pyIsAlpha).length : ℚ) := by
      exact_mod_cast h1
    rw [max_eq_right h2]
  unfold isHeadingShape
  rw [if_neg ht]
  by_cases hA : (pyStripList b.text.toList).length ≤ 8 ∧
      (endsColonRaw (pyStripList b.text.toList) = true ∨
        cnNumTail (pyStripList b.text.toList) = true)
  · rw [if_pos hA]
  · rw [if_neg hA, if_pos hlen]
    by_cases hC : endsColonRaw (pyStripList b.text.toList) = true
    · rw [if_pos hC]
    · rw [if_neg hC]
      by_cases hE : reEnumMatch (String.mk (pyStripList b.text.toList)) = true ∧
          (pyStripList b.text.toList).length ≤ 40
      · rw [if_pos hE]
      · rw [if_neg hE, if_pos hne]
        have hcond : ((((pyStripList b.text.toList).filter pyIsAlpha).filter
            pyIsUpper).length : ℚ) /
            (max (1 : ℚ)
              (((pyStripList b.text.toList).filter pyIsAlpha).length : ℚ))
            ≥ 0.6 := by
          rw [hmax]
          exact hup
        rw [if_pos hcond]

theorem claim8_upper_shape_witness :
    (pyStripList ("ABC" : String).toList).length ≤ 60 ∧
    ((pyStripList ("ABC" : String).toList).filter pyIsAlpha).length ≠ 0 ∧
    ((((pyStripList ("ABC" : String).toList).filter pyIsAlpha).filter
        pyIsUpper).length : ℚ) /
        (((pyStripList ("ABC" : String).toList).filter pyIsAlpha).length : ℚ)
      ≥ 0.6 ∧
    isHeadingShape ⟨"ABC", 0, 0, none⟩ = true :=
  ⟨by decide, by decide, by with_unfolding_all decide,
    claim8_upper_shape ⟨"ABC", 0, 0, none⟩ (by decide) (by decide)
      (by with_unfolding_all decide)⟩

/-! ## Empty input (C9) -/

/-- C9: if every block's text is empty or whitespace-only (in particular for
an empty block list), the segmentation call returns empty span and text
lists and no error; the result does not depend on the embedding or re-ranker
oracles, which captures that neither is invoked. -/
theorem claim9_empty_input (cos ce : ℕ → ℕ → ℚ) (useCE : Bool) (cfg : Cfg)
    (blocks : List Block) (h : ∀ b ∈ blocks, pyStrip b.text = "") :
    clauseChunk cos ce useCE cfg blocks = some ⟨[], []⟩ := by
  have hf : filteredBlocks blocks = [] := by
    unfold filteredBlocks
    rw [List.filter_eq_nil_iff]
    intro b hb
    simp [h b hb]
  unfold clauseChunk
  rw [hf]
  simp

theorem claim9_empty_input_witness :
    (∀ b ∈ ([⟨"  ", 0, 0, none⟩, ⟨"\t\n", 0, 0, none⟩] : List Block),
      pyStrip b.text = "") ∧
    clauseChunk (fun _ _ => 0) (fun _ _ => 0) true defaultCfg
      [⟨"  ", 0, 0, none⟩, ⟨"\t\n", 0, 0, none⟩] = some ⟨[], []⟩ :=
  ⟨by decide, claim9_empty_input _ _ true defaultCfg _ (by decide)⟩

/-! ## Unknown profile fallback (C10) -/

/-- C10: any mode string outside the three shipped profiles silently selects
the contract weight set, so `chunk_blocks` returns exactly the result of a
"contract" call on the same inputs. -/
theorem claim10_unknown_mode (mode : String) (cos ce : ℕ → ℕ → ℚ)
    (blocks : List Block) (useCE : Bool)
    (h1 : mode ≠ "contract") (h2 : mode ≠ "summary") (h3 : mode ≠ "single") :
    chunkBlocks cos ce blocks mode useCE =
      chunkBlocks cos ce blocks "contract" useCE := by
  unfold chunkBlocks cfgFor
  simp [h1, h2, h3]

theorem claim10_unknown_mode_witness :
    ("" : String) ≠ "contract" ∧ ("" : String) ≠ "summary" ∧
    ("" : String) ≠ "single" ∧
    chunkBlocks (fun _ _ => 0) (fun _ _ => 0) [] "" false =
      chunkBlocks (fun _ _ => 0) (fun _ _ => 0) [] "contract" false :=
  ⟨by decide, by decide, by decide,
    claim10_unknown_mode "" _ _ [] false (by decide) (by decide) (by decide)⟩

/-! ## DP tie preference (C4) -/

/-- C4 is refuted in the CONTINUE cell: with all-zero penalties and
`s_start ≡ -1e9`, both incoming candidates of the CONTINUE cell at position 1
are exactly equal, yet the backpointer records 0 (the transition from START,
`SC`), not 1 (`CC`) as the claim demands. -/
theorem claim4_counterexample :
    (dpF ⟨0, 0, 0, 0⟩ (fun _ => (-1000000000 : ℚ)) (fun _ => 0) 0).1 +
        (0 : ℚ) + (0 : ℚ) =
      (dpF ⟨0, 0, 0, 0⟩ (fun _ => (-1000000000 : ℚ)) (fun _ => 0) 0).2 +
        (0 : ℚ) + (0 : ℚ) ∧
    btF ⟨0, 0, 0, 0⟩ (fun _ => (-1000000000 : ℚ)) (fun _ => 0) 1 1 ≠ 1 := by
  constructor
  · with_unfolding_all rfl
  · with_unfolding_all decide

/-- C4 (amended): on an exact tie both DP cells prefer the transition coming
from the START state at `i-1`: the START cell picks SS over CS (as the claim
says), but the CONTINUE cell picks SC over CC (the opposite of the claim). -/
theorem claim4_tie_prefers_from_start (P : Pens) (sS sC : ℕ → ℚ) (i : ℕ) :
    ((dpF P sS sC (i - 1)).1 + P.penSS + sS i =
        (dpF P sS sC (i - 1)).2 + P.penCS + sS i →
      btF P sS sC i 0 = 0) ∧
    ((dpF P sS sC (i - 1)).1 + P.penSC + sC i =
        (dpF P sS sC (i - 1)).2 + P.penCC + sC i →
      btF P sS sC i 1 = 0) := by
  constructor
  · intro h
    unfold btF
    simp [le_of_eq h.symm]
  · intro h
    unfold btF
    simp [le_of_eq h.symm]

/-! ## Tie-break pass structure (C5, C6) -/

theorem getD_set_ne (l : List ℕ) (c j v d : ℕ) (h : c ≠ j) :
    (l.set c v).getD j d = l.getD j d := by
  simp [List.getD_eq_getElem?_getD, List.getElem?_set_ne h]

/-- Every triple collected by the review loop has the shape
`(j-1, head_of[j], j)` for a reviewed position `j ≥ 1` in range whose score
gap is within the tie margin. -/
theorem reviewGo_mem (tm : ℚ) (sS sC : ℕ → ℚ) (hOf : ℕ → Option ℕ) :
    ∀ (l : List ℕ) (h : Option ℕ) (i : ℕ) (t : ℕ × Option ℕ × ℕ),
      t ∈ reviewGo tm sS sC hOf h i l →
      ∃ j, t = (j - 1, hOf j, j) ∧ 1 ≤ j ∧ i ≤ j ∧ j < i + l.length ∧
        |sS j - sC j| ≤ tm := by
  intro l
  induction l with
  | nil =>
    intro h i t ht
    simp [reviewGo] at ht
  | cons s rest ih =>
    intro h i t ht
    have hstep : ∀ h'', t ∈ reviewGo tm sS sC hOf h'' (i + 1) rest →
        ∃ j, t = (j - 1, hOf j, j) ∧ 1 ≤ j ∧ i ≤ j ∧
          j < i + (s :: rest).length ∧ |sS j - sC j| ≤ tm := by
      intro h'' hm
      obtain ⟨j, h1, h2, h3, h4, h5⟩ := ih h'' (i + 1) t hm
      exact ⟨j, h1, h2, by omega, by rw [List.length_cons]; omega, h5⟩
    simp only [reviewGo] at ht
    by_cases h0 : i = 0
    · rw [if_pos h0] at ht
      exact hstep _ ht
    · rw [if_neg h0] at ht
      by_cases hnone : (if s = 0 then some i else h) = none
      · rw [if_pos hnone] at ht
        exact hstep _ ht
      · rw [if_neg hnone] at ht
        by_cases htie : |sS i - sC i| ≤ tm
        · rw [if_pos htie] at ht
          rcases List.mem_cons.mp ht with h1 | h1
          · exact ⟨i, h1, Nat.one_le_iff_ne_zero.mpr h0, le_refl i,
              by rw [List.length_cons]; omega, htie⟩
          · exact hstep _ h1
        · rw [if_neg htie] at ht
          exact hstep _ ht

/-- All entries of the `head_of` array are defined once the running head is. -/
theorem headOfGo_isSome :
    ∀ (l : List ℕ) (h : Option ℕ) (i k : ℕ), k < l.length → h.isSome →
      ((headOfGo h i l).getD k none).isSome := by
  intro l
  induction l with
  | nil =>
    intro h i k hk
    simp at hk
  | cons s rest ih =>
    intro h i k hk hh
    simp only [headOfGo]
    cases k with
    | zero =>
      rw [List.getD_cons_zero]
      by_cases hz : s = 0
      · rw [if_pos hz]
        rfl
      · rw [if_neg hz]
        exact hh
    | succ k' =>
      rw [List.getD_cons_succ]
      refine ih _ (i + 1) k' (by rw [List.length_cons] at hk; omega) ?_
      by_cases hz : s = 0
      · rw [if_pos hz]
        rfl
      · rw [if_neg hz]
        exact hh

/-- When the label at position `k+1` is CONTINUE, `head_of[k+1]` equals
`head_of[k]`: a continuing block belongs to the same span as its
predecessor. -/
theorem headOfGo_cont :
    ∀ (l : List ℕ) (h : Option ℕ) (i k : ℕ), k + 1 < l.length →
      l.getD (k + 1) 0 ≠ 0 →
      (headOfGo h i l).getD (k + 1) none = (headOfGo h i l).getD k none := by
  intro l
  induction l with
  | nil =>
    intro h i k hk
    simp at hk
  | cons s rest ih =>
    intro h i k hk hs
    simp only [headOfGo]
    cases k with
    | zero =>
      rw [List.getD_cons_succ] at hs
      obtain ⟨s2, r2, rfl⟩ : ∃ s2 r2, rest = s2 :: r2 := by
        cases rest with
        | nil =>
          rw [List.length_cons] at hk
          simp at hk
        | cons s2 r2 => exact ⟨s2, r2, rfl⟩
      rw [List.getD_cons_zero] at hs
      rw [List.getD_cons_succ, List.getD_cons_zero]
      simp only [headOfGo]
      rw [List.getD_cons_zero, if_neg hs]
    | succ k' =>
      rw [List.getD_cons_succ, List.getD_cons_succ]
      rw [List.getD_cons_succ] at hs
      exact ih _ (i + 1) k' (by rw [List.length_cons] at hk; omega) hs

/-- The review update succeeds whenever every reviewed head is defined. -/
theorem applyReview_some (ds dc : ℚ) (ce : ℕ → ℕ → ℚ) :
    ∀ (tr : List (ℕ × Option ℕ × ℕ)) (st : List ℕ),
      (∀ t ∈ tr, t.2.1.isSome) →
      ∃ out, applyReview ds dc ce st tr = some out := by
  intro tr
  induction tr with
  | nil =>
    intro st _
    exact ⟨st, rfl⟩
  | cons t rest ih =>
    intro st hall
    obtain ⟨p, h, c⟩ := t
    have hs : h.isSome := hall _ (List.mem_cons_self _ _)
    match h, hs with
    | some hIdx, _ =>
      rw [applyReview]
      exact ih _ fun u hu => hall u (List.mem_cons_of_mem _ hu)

theorem applyReview_length (ds dc : ℚ) (ce : ℕ → ℕ → ℚ) :
    ∀ (tr : List (ℕ × Option ℕ × ℕ)) (st out : List ℕ),
      applyReview ds dc ce st tr = some out → out.length = st.length := by
  intro tr
  induction tr with
  | nil =>
    intro st out h
    rw [applyReview] at h
    cases h
    rfl
  | cons t rest ih =>
    intro st out h
    obtain ⟨p, hd, c⟩ := t
    match hd with
    | none => exact Option.noConfusion h
    | some hIdx =>
      rw [applyReview] at h
      have := ih _ _ h
      rw [this]
      split_ifs <;> simp

/-- Frame lemma for the review update: a position is left unchanged when
every triple that targets it (if any) carries a defined head and a
cross-encoder delta strictly between the two thresholds. -/
theorem applyReview_getD (ds dc : ℚ) (ce : ℕ → ℕ → ℚ) :
    ∀ (tr : List (ℕ × Option ℕ × ℕ)) (st out : List ℕ) (j d : ℕ),
      applyReview ds dc ce st tr = some out →
      (∀ t ∈ tr, t.2.2 = j →
        ∃ hd, t.2.1 = some hd ∧ ds < ce t.1 j - ce hd j ∧
          ce t.1 j - ce hd j < dc) →
      out.getD j d = st.getD j d := by
  intro tr
  induction tr with
  | nil =>
    intro st out j d h _
    rw [applyReview] at h
    cases h
    rfl
  | cons t rest ih =>
    intro st out j d h hmid
    obtain ⟨p, hd, c⟩ := t
    match hd with
    | none => exact Option.noConfusion h
    | some hIdx =>
      rw [applyReview] at h
      have hrest := ih _ _ j d h fun u hu => hmid u (List.mem_cons_of_mem _ hu)
      rw [hrest]
      rcases eq_or_ne c j with rfl | hne
      · obtain ⟨hd', hhd, hlo, hhi⟩ :=
          hmid (p, some hIdx, c) (List.mem_cons_self _ _) rfl
        obtain rfl : hIdx = hd' := by injection hhd
        rw [if_neg (not_le.mpr hlo), if_neg (not_le.mpr hhi)]
      · split_ifs
        · exact getD_set_ne _ _ _ _ _ hne
        · exact getD_set_ne _ _ _ _ _ hne
        · rfl

/-! ## Span partition machinery (C1, C2) -/

/-- Flattening the span builder yields the accumulator, the open span, and
the remaining indices, in order. -/
theorem buildSpansGo_flatten (states : ℕ → ℕ) :
    ∀ (l cur : List ℕ) (acc : List (List ℕ)),
      (buildSpansGo states l cur acc).flatten = acc.flatten ++ cur ++ l := by
  intro l
  induction l with
  | nil =>
    intro cur acc
    simp [buildSpansGo]
  | cons i rest ih =>
    intro cur acc
    rw [buildSpansGo]
    split_ifs
    · rw [ih]
      simp
    · rw [ih]
      simp

theorem buildSpansGo_ne (states : ℕ → ℕ) :
    ∀ (l cur : List ℕ) (acc : List (List ℕ)), cur ≠ [] →
      (∀ s ∈ acc, s ≠ []) →
      ∀ s ∈ buildSpansGo states l cur acc, s ≠ [] := by
  intro l
  induction l with
  | nil =>
    intro cur acc hcur hacc s hs
    rw [buildSpansGo] at hs
    rcases List.mem_append.mp hs with h | h
    · exact hacc s h
    · rw [List.mem_singleton.mp h]
      exact hcur
  | cons i rest ih =>
    intro cur acc hcur hacc s hs
    rw [buildSpansGo] at hs
    split_ifs at hs
    · refine ih _ _ (by simp) ?_ s hs
      intro u hu
      rcases List.mem_append.mp hu with h | h
      · exact hacc u h
      · rw [List.mem_singleton.mp h]
        exact hcur
    · exact ih _ _ (by simp) hacc s hs

/-- The raw spans of a labeling of `n ≥ 1` blocks flatten to `0, 1, …, n-1`. -/
theorem buildSpans_flatten (states : ℕ → ℕ) (n : ℕ) (hn : 1 ≤ n) :
    (buildSpans states n).flatten = List.range n := by
  unfold buildSpans
  rw [buildSpansGo_flatten]
  rw [List.range_eq_range']
  obtain ⟨m, rfl⟩ : ∃ m, n = m + 1 := ⟨n - 1, by omega⟩
  rw [List.range'_succ]
  simp

theorem buildSpans_ne (states : ℕ → ℕ) (n : ℕ) :
    ∀ s ∈ buildSpans states n, s ≠ [] := by
  unfold buildSpans
  exact buildSpansGo_ne states _ _ _ (by simp) (by simp)

/-- A list of non-empty parts whose flattening is a contiguous run consists
of contiguous runs. -/
theorem parts_contiguous :
    ∀ (l : List (List ℕ)) (a m : ℕ), l.flatten = List.range' a m →
      ∀ s ∈ l, ∃ b, s = List.range' b s.length := by
  intro l
  induction l with
  | nil =>
    intro a m _ s hs
    simp at hs
  | cons s0 rest ih =>
    intro a m hf s hs
    rw [List.flatten_cons] at hf
    have hlen : s0.length + rest.flatten.length = m := by
      have := congrArg List.length hf
      simpa using this
    have hsplit : List.range' a m =
        List.range' a s0.length ++ List.range' (a + s0.length)
          (rest.flatten.length) := by
      rw [List.range'_append_1]
      rw [Nat.add_comm rest.flatten.length s0.length, hlen]
    rw [hsplit] at hf
    have hlen2 : s0.length = (List.range' a s0.length).length := by simp
    obtain ⟨h1, h2⟩ := List.append_inj hf hlen2
    rcases List.mem_cons.mp hs with rfl | hmem
    · exact ⟨a, h1⟩
    · exact ih _ _ h2 s hmem

theorem headingSplitOne_flatten (blocks : List Block) (s : List ℕ) :
    (headingSplitOne blocks s).flatten = s := by
  cases s with
  | nil => rfl
  | cons a tail =>
    cases tail with
    | nil => rfl
    | cons b rest2 =>
      simp only [headingSplitOne]
      split_ifs <;> simp

theorem headingSplitOne_ne (blocks : List Block) (s : List ℕ) (hs : s ≠ []) :
    ∀ u ∈ headingSplitOne blocks s, u ≠ [] := by
  cases s with
  | nil => exact absurd rfl hs
  | cons a tail =>
    cases tail with
    | nil =>
      intro u hu
      simp only [headingSplitOne, List.mem_singleton] at hu
      rw [hu]
      simp
    | cons b rest2 =>
      intro u hu
      simp only [headingSplitOne] at hu
      split_ifs at hu
      · rcases List.mem_cons.mp hu with rfl | hu2
        · simp
        · rw [List.mem_singleton.mp hu2]
          simp
      · rw [List.mem_singleton.mp hu]
        simp

/-- The heading strong-split preserves the block content of the span list. -/
theorem headingSplit_flatten (blocks : List Block) :
    ∀ spans : List (List ℕ),
      (headingSplit blocks spans).flatten = spans.flatten := by
  intro spans
  induction spans with
  | nil => rfl
  | cons s rest ih =>
    unfold headingSplit at ih ⊢
    rw [List.flatMap_cons, List.flatten_append, ih,
      headingSplitOne_flatten, List.flatten_cons]

theorem headingSplit_ne (blocks : List Block) :
    ∀ spans : List (List ℕ), (∀ s ∈ spans, s ≠ []) →
      ∀ s ∈ headingSplit blocks spans, s ≠ [] := by
  intro spans
  induction spans with
  | nil =>
    intro _ s hs
    simp [headingSplit] at hs
  | cons s0 rest ih =>
    intro hne s hs
    unfold headingSplit at hs ih
    rw [List.flatMap_cons] at hs
    rcases List.mem_append.mp hs with h | h
    · exact headingSplitOne_ne blocks s0 (hne s0 (List.mem_cons_self _ _)) s h
    · exact ih (fun u hu => hne u (List.mem_cons_of_mem _ hu)) s h

theorem extendLast_flatten :
    ∀ (ms : List (List ℕ)) (s : List ℕ),
      (extendLast ms s).flatten = ms.flatten ++ s := by
  intro ms
  induction ms with
  | nil =>
    intro s
    simp [extendLast]
  | cons m rest ih =>
    intro s
    cases rest with
    | nil => simp [extendLast]
    | cons m2 r2 =>
      simp only [extendLast]
      rw [List.flatten_cons, List.flatten_cons, ih, List.append_assoc]

theorem extendLast_ne :
    ∀ (ms : List (List ℕ)) (s : List ℕ), (∀ u ∈ ms, u ≠ []) → s ≠ [] →
      ∀ u ∈ extendLast ms s, u ≠ [] := by
  intro ms
  induction ms with
  | nil =>
    intro s _ hs u hu
    simp only [extendLast, List.mem_singleton] at hu
    rw [hu]
    exact hs
  | cons m rest ih =>
    intro s hms hs u hu
    cases rest with
    | nil =>
      simp only [extendLast, List.mem_singleton] at hu
      rw [hu]
      have := hms m (List.mem_cons_self _ _)
      simp [this]
    | cons m2 r2 =>
      simp only [extendLast] at hu
      rcases List.mem_cons.mp hu with rfl | h2
      · exact hms u (List.mem_cons_self _ _)
      · exact ih s (fun v hv => hms v (List.mem_cons_of_mem _ hv)) hs u h2

/-- In the merge loop, a singleton that clears the 0.60 similarity bar with
no right neighbour must merge left: its left similarity is the max, so it is
≥ 0.60 > −1, forcing a defined left neighbour. -/
theorem mergeGo_last_left (cos : ℕ → ℕ → ℚ) (hi : ℕ) (prevHead : Option ℕ)
    (hmax : max (leftSim cos hi prevHead) (rightSim cos hi []) ≥ 0.60) :
    leftSim cos hi prevHead ≥ rightSim cos hi [] ∧ prevHead.isSome := by
  have hls : leftSim cos hi prevHead ≥ 0.60 := by
    rcases le_max_iff.mp hmax with h | h
    · exact h
    · rw [rightSim] at h
      norm_num at h
  constructor
  · rw [rightSim]
    exact le_trans (by norm_num) hls
  · match prevHead with
    | none =>
      rw [leftSim] at hls
      norm_num at hls
    | some lh => rfl

/-- The short-span merge sweep preserves the block content. -/
theorem mergeGo_flatten (cos : ℕ → ℕ → ℚ) :
    ∀ (rest : List (List ℕ)) (prevHead : Option ℕ) (merged : List (List ℕ))
      (cur : List ℕ),
      (mergeGo cos prevHead merged cur rest).flatten =
        merged.flatten ++ cur ++ rest.flatten := by
  intro rest
  induction rest with
  | nil =>
    intro prevHead merged cur
    rw [mergeGo]
    by_cases hlen : cur.length = 1
    · rw [if_pos hlen]
      by_cases hmax : max (leftSim cos (cur.headD 0) prevHead)
          (rightSim cos (cur.headD 0) []) ≥ 0.60
      · rw [if_pos hmax, if_pos (mergeGo_last_left cos _ prevHead hmax)]
        rw [extendLast_flatten]
        simp
      · rw [if_neg hmax]
        simp
    · rw [if_neg hlen]
      simp
  | cons nxt rest' ih =>
    intro prevHead merged cur
    rw [mergeGo]
    by_cases hlen : cur.length = 1
    · rw [if_pos hlen]
      by_cases hmax : max (leftSim cos (cur.headD 0) prevHead)
          (rightSim cos (cur.headD 0) (nxt :: rest')) ≥ 0.60
      · rw [if_pos hmax]
        by_cases hleft : leftSim cos (cur.headD 0) prevHead ≥
            rightSim cos (cur.headD 0) (nxt :: rest') ∧ prevHead.isSome
        · rw [if_pos hleft, ih, extendLast_flatten]
          simp
        · rw [if_neg hleft, ih]
          simp
      · rw [if_neg hmax, ih]
        simp
    · rw [if_neg hlen, ih]
      simp

theorem mergeGo_ne (cos : ℕ → ℕ → ℚ) :
    ∀ (rest : List (List ℕ)) (prevHead : Option ℕ) (merged : List (List ℕ))
      (cur : List ℕ),
      (∀ u ∈ merged, u ≠ []) → cur ≠ [] → (∀ u ∈ rest, u ≠ []) →
      ∀ u ∈ mergeGo cos prevHead merged cur rest, u ≠ [] := by
  intro rest
  induction rest with
  | nil =>
    intro prevHead merged cur hm hcur _ u hu
    rw [mergeGo] at hu
    split_ifs at hu
    · exact extendLast_ne merged cur hm hcur u hu
    · exact hm u hu
    · rcases List.mem_append.mp hu with h | h
      · exact hm u h
      · rw [List.mem_singleton.mp h]
        exact hcur
    · rcases List.mem_append.mp hu with h | h
      · exact hm u h
      · rw [List.mem_singleton.mp h]
        exact hcur
  | cons nxt rest' ih =>
    intro prevHead merged cur hm hcur hrest u hu
    have hnxt : nxt ≠ [] := hrest nxt (List.mem_cons_self _ _)
    have hrest' : ∀ v ∈ rest', v ≠ [] :=
      fun v hv => hrest v (List.mem_cons_of_mem _ hv)
    rw [mergeGo] at hu
    split_ifs at hu
    · exact ih _ _ _ (extendLast_ne merged cur hm hcur) hnxt hrest' u hu
    · refine ih _ _ _ hm ?_ hrest' u hu
      intro hemp
      exact hcur (List.append_eq_nil.mp hemp).1
    · refine ih _ _ _ ?_ hnxt hrest' u hu
      intro v hv
      rcases List.mem_append.mp hv with h | h
      · exact hm v h
      · rw [List.mem_singleton.mp h]
        exact hcur
    · refine ih _ _ _ ?_ hnxt hrest' u hu
      intro v hv
      rcases List.mem_append.mp hv with h | h
      · exact hm v h
      · rw [List.mem_singleton.mp h]
        exact hcur

/-- `_post_fix_spans` preserves the flattened index sequence. -/
theorem postFixSpans_flatten (cos : ℕ → ℕ → ℚ) (blocks : List Block)
    (spans : List (List ℕ)) :
    (postFixSpans cos blocks spans).flatten = spans.flatten := by
  unfold postFixSpans
  split_ifs with h1
  · rfl
  · simp only []
    rw [← headingSplit_flatten blocks spans]
    generalize headingSplit blocks spans = fixed
    split_ifs with h2
    · match fixed with
      | [] => rfl
      | s :: rest =>
        rw [mergeShort, mergeGo_flatten]
        simp
    · rfl

theorem postFixSpans_ne (cos : ℕ → ℕ → ℚ) (blocks : List Block)
    (spans : List (List ℕ)) (hne : ∀ s ∈ spans, s ≠ []) :
    ∀ s ∈ postFixSpans cos blocks spans, s ≠ [] := by
  unfold postFixSpans
  split_ifs with h1
  · intro s hs
    exact hne s hs
  · simp only []
    have hfix := headingSplit_ne blocks spans hne
    generalize headingSplit blocks spans = fixed at hfix ⊢
    split_ifs with h2
    · match fixed with
      | [] =>
        intro s hs
        simp [mergeShort] at hs
      | s0 :: rest =>
        rw [mergeShort]
        exact mergeGo_ne cos rest none [] s0 (by simp)
          (hfix s0 (List.mem_cons_self _ _))
          (fun v hv => hfix v (List.mem_cons_of_mem _ hv))
    · exact hfix

/-- C1: the span list returned by the pipeline is a partition of the
filtered indices `0..n-1` — the spans flatten, in output order, to exactly
`0, 1, …, n-1` (no gaps, no overlaps), every span is non-empty, and every
span is a contiguous run; this holds for the final (post-processed) spans
and likewise for the raw label-derived spans before `_post_fix_spans`. -/
theorem claim1_partition (cos ce : ℕ → ℕ → ℚ) (useCE : Bool) (cfg : Cfg)
    (blocks : List Block) (r : ChunkResult)
    (hr : clauseChunk cos ce useCE cfg blocks = some r) :
    (r.spans.flatten = List.range (filteredBlocks blocks).length ∧
      (∀ s ∈ r.spans, s ≠ []) ∧
      (∀ s ∈ r.spans, ∃ a, s = List.range' a s.length)) ∧
    (∀ st, 1 ≤ (filteredBlocks blocks).length →
      pipelineStatesCE cfg cos ce useCE (filteredBlocks blocks) = some st →
      (buildSpans (fun i => st.getD i 0)
          (filteredBlocks blocks).length).flatten =
        List.range (filteredBlocks blocks).length ∧
      (∀ s ∈ buildSpans (fun i => st.getD i 0)
          (filteredBlocks blocks).length, s ≠ []) ∧
      (∀ s ∈ buildSpans (fun i => st.getD i 0)
          (filteredBlocks blocks).length,
        ∃ a, s = List.range' a s.length)) := by
  simp only [clauseChunk] at hr
  by_cases hn : (filteredBlocks blocks).length = 0
  · rw [if_pos hn] at hr
    obtain rfl : (⟨[], []⟩ : ChunkResult) = r := Option.some.inj hr
    refine ⟨⟨?_, ?_, ?_⟩, ?_⟩
    · rw [hn]
      rfl
    · intro s hs
      simp at hs
    · intro s hs
      simp at hs
    · intro st h1
      omega
  · rw [if_neg hn] at hr
    have hn1 : 1 ≤ (filteredBlocks blocks).length := by omega
    rcases hst : pipelineStatesCE cfg cos ce useCE (filteredBlocks blocks)
      with _ | st
    · rw [hst] at hr
      exact Option.noConfusion hr
    · rw [hst] at hr
      obtain rfl : _ = r := Option.some.inj hr
      have hraw := buildSpans_flatten (fun i => st.getD i 0)
        (filteredBlocks blocks).length hn1
      have hrawne := buildSpans_ne (fun i => st.getD i 0)
        (filteredBlocks blocks).length
      refine ⟨⟨?_, ?_, ?_⟩, ?_⟩
      · rw [postFixSpans_flatten, hraw]
      · exact postFixSpans_ne _ _ _ hrawne
      · intro s hs
        refine parts_contiguous _ 0 (filteredBlocks blocks).length ?_ s hs
        rw [postFixSpans_flatten, hraw, List.range_eq_range']
      · intro st' _ hst'
        obtain rfl : st = st' := Option.some.inj hst'
        refine ⟨hraw, hrawne, ?_⟩
        intro s hs
        refine parts_contiguous _ 0 (filteredBlocks blocks).length ?_ s hs
        rw [hraw, List.range_eq_range']

theorem claim1_partition_witness :
    clauseChunk (fun _ _ => 0) (fun _ _ => 0) false contractCfg
        [⟨"Alpha one", 0, 0, none⟩, ⟨"Beta two", 0, 0, none⟩] =
      some ⟨[[0, 1]], ["Alpha one\nBeta two"]⟩ ∧
    ((([[0, 1]] : List (List ℕ)).flatten =
        List.range (filteredBlocks
          [⟨"Alpha one", 0, 0, none⟩, ⟨"Beta two", 0, 0, none⟩]).length ∧
      (∀ s ∈ ([[0, 1]] : List (List ℕ)), s ≠ []) ∧
      (∀ s ∈ ([[0, 1]] : List (List ℕ)), ∃ a, s = List.range' a s.length)) ∧
    (∀ st, 1 ≤ (filteredBlocks
          [⟨"Alpha one", 0, 0, none⟩, ⟨"Beta two", 0, 0, none⟩]).length →
      pipelineStatesCE contractCfg (fun _ _ => 0) (fun _ _ => 0) false
          (filteredBlocks
            [⟨"Alpha one", 0, 0, none⟩, ⟨"Beta two", 0, 0, none⟩]) =
        some st →
      (buildSpans (fun i => st.getD i 0)
          (filteredBlocks
            [⟨"Alpha one", 0, 0, none⟩, ⟨"Beta two", 0, 0, none⟩]).length).flatten =
        List.range (filteredBlocks
          [⟨"Alpha one", 0, 0, none⟩, ⟨"Beta two", 0, 0, none⟩]).length ∧
      (∀ s ∈ buildSpans (fun i => st.getD i 0)
          (filteredBlocks
            [⟨"Alpha one", 0, 0, none⟩, ⟨"Beta two", 0, 0, none⟩]).length,
        s ≠ []) ∧
      (∀ s ∈ buildSpans (fun i => st.getD i 0)
          (filteredBlocks
            [⟨"Alpha one", 0, 0, none⟩, ⟨"Beta two", 0, 0, none⟩]).length,
        ∃ a, s = List.range' a s.length))) := by
  have hr : clauseChunk (fun _ _ => 0) (fun _ _ => 0) false contractCfg
      [⟨"Alpha one", 0, 0, none⟩, ⟨"Beta two", 0, 0, none⟩] =
      some ⟨[[0, 1]], ["Alpha one\nBeta two"]⟩ := by
    with_unfolding_all decide
  exact ⟨hr, claim1_partition (fun _ _ => 0) (fun _ _ => 0) false contractCfg
    [⟨"Alpha one", 0, 0, none⟩, ⟨"Beta two", 0, 0, none⟩]
    ⟨[[0, 1]], ["Alpha one\nBeta two"]⟩ hr⟩

/-! ## First-block invariant machinery (C2) -/

theorem decodeFrom_ne (bt : ℕ → ℕ → ℕ) : ∀ i c, decodeFrom bt i c ≠ [] := by
  intro i c
  cases i with
  | zero => simp [decodeFrom]
  | succ i => simp [decodeFrom]

theorem decodeFrom_length (bt : ℕ → ℕ → ℕ) :
    ∀ i c, (decodeFrom bt i c).length = i + 1 := by
  intro i
  induction i with
  | zero =>
    intro c
    rfl
  | succ i ih =>
    intro c
    rw [decodeFrom, List.length_append, ih]
    rfl

/-- If both backpointers at position 1 point to START, every traceback from
a later position starts with the START label. -/
theorem decodeFrom_head (bt : ℕ → ℕ → ℕ) (hbt : ∀ c, bt 1 c = 0) :
    ∀ i c, 1 ≤ i → (decodeFrom bt i c).head? = some 0 := by
  intro i
  induction i with
  | zero =>
    intro c h
    omega
  | succ i ih =>
    intro c _
    rw [decodeFrom]
    rcases Nat.eq_zero_or_pos i with rfl | hpos
    · rw [decodeFrom, hbt c]
      rfl
    · rw [List.head?_append, ih _ hpos]
      rfl

/-- The traceback only produces the labels 0 and 1. -/
theorem btF_val (P : Pens) (sS sC : ℕ → ℚ) (i c : ℕ) :
    btF P sS sC i c = 0 ∨ btF P sS sC i c = 1 := by
  unfold btF
  split_ifs <;> simp <;> exact le_or_lt _ _

theorem decodeFrom_val (P : Pens) (sS sC : ℕ → ℚ) :
    ∀ i c, c = 0 ∨ c = 1 →
      ∀ x ∈ decodeFrom (btF P sS sC) i c, x = 0 ∨ x = 1 := by
  intro i
  induction i with
  | zero =>
    intro c hc x hx
    rw [decodeFrom, List.mem_singleton] at hx
    rw [hx]
    exact hc
  | succ i ih =>
    intro c hc x hx
    rw [decodeFrom] at hx
    rcases List.mem_append.mp hx with h | h
    · exact ih _ (btF_val P sS sC (i + 1) c) x h
    · rw [List.mem_singleton.mp h]
      exact hc

/-- Decoded labels of the DP, key facts: with the first-position score far
enough above the `-1e9` sentinel, the decoded sequence has length `n`, starts
with START, and contains only the labels 0/1. -/
theorem dpStates_head (P : Pens) (sS sC : ℕ → ℚ) (n : ℕ) (hn : 1 ≤ n)
    (h1 : negInf + P.penCS ≤ sS 0 + P.penSS)
    (h2 : negInf + P.penCC ≤ sS 0 + P.penSC)
    (h3 : negInf ≤ sS 0) :
    (dpStates P sS sC n).head? = some 0 := by
  unfold dpStates
  rcases Nat.lt_or_ge n 2 with hlt | hge
  · obtain rfl : n = 1 := by omega
    simp only [dpF]
    rw [if_pos (by simpa [dpF] using h3)]
    rfl
  · have hbt : ∀ c, btF P sS sC 1 c = 0 := by
      intro c
      unfold btF
      rcases eq_or_ne c 0 with rfl | hc
      · rw [if_pos rfl, if_pos (by simp only [dpF]; linarith)]
      · rw [if_neg hc, if_pos (by simp only [dpF]; linarith)]
    exact decodeFrom_head _ hbt (n - 1) _ (by omega)

theorem dpStates_length (P : Pens) (sS sC : ℕ → ℚ) (n : ℕ) (hn : 1 ≤ n) :
    (dpStates P sS sC n).length = n := by
  unfold dpStates
  rw [decodeFrom_length]
  omega

/-- During the local-scoring fold the already-emitted score entries are
never modified. -/
theorem scoreFold_stable (cfg : Cfg) (cos : ℕ → ℕ → ℚ) (blocks : List Block) :
    ∀ (l : List ℕ) (st : ScanState) (k : ℕ) (d : ℚ),
      k < st.accStart.length →
      ((l.foldl (scoreStep cfg cos blocks) st).accStart).getD k d =
        st.accStart.getD k d := by
  intro l
  induction l with
  | nil =>
    intro st k d _
    rfl
  | cons i rest ih =>
    intro st k d hk
    rw [List.foldl_cons]
    have hlen : (scoreStep cfg cos blocks st i).accStart =
        st.accStart ++ [(scoreStep cfg cos blocks st i).accStart.getLastD 0] := by
      simp only [scoreStep]
      rw [List.getLastD_concat]
    rw [ih _ k d (by rw [hlen, List.length_append]; omega), hlen]
    rw [List.getD_eq_getElem?_getD, List.getD_eq_getElem?_getD,
      List.getElem?_append_left hk]

/-- The first raw `s_start` entry is non-negative whenever the three weights
that can reach position 0 are non-negative: at `i = 0` there is no previous
block, both cosine references are absent (`margin = 0`), so the only
contributions are `w_enum`, `w_heading` and possibly `w_sem_start`. -/
theorem localScores_first (cfg : Cfg) (cos : ℕ → ℕ → ℚ)
    (blocks : List Block) (hb : blocks ≠ [])
    (hwE : 0 ≤ cfg.wEnum) (hwH : 0 ≤ cfg.wHeading) (hwS : 0 ≤ cfg.wSemStart) :
    0 ≤ (localScores cfg cos blocks).1.getD 0 0 := by
  unfold localScores
  have hn : 1 ≤ blocks.length := by
    cases blocks with
    | nil => exact absurd rfl hb
    | cons b bs => simp
  obtain ⟨m, hm⟩ : ∃ m, blocks.length = m + 1 := ⟨blocks.length - 1, by omega⟩
  rw [hm, List.range_eq_range', List.range'_succ, List.foldl_cons]
  rw [scoreFold_stable cfg cos blocks _ _ 0 0 (by simp [scoreStep])]
  simp only [scoreStep]
  split_ifs <;> simp <;> linarith

/-- Numeric facts about every profile reachable through `cfgFor`: the weights
feeding position 0 are non-negative, the start bias is `-0.8`, and `9.2` (the
resulting lower bound on the boosted `s_start[0]`) clears the `-1e9` sentinel
by more than any transition-penalty difference. -/
theorem cfgFor_ok (mode : String) :
    0 ≤ (cfgFor mode).wEnum ∧ 0 ≤ (cfgFor mode).wHeading ∧
    0 ≤ (cfgFor mode).wSemStart ∧ (cfgFor mode).biasStart = -0.8 ∧
    negInf + (cfgFor mode).penCS + 1 ≤ (9.2 : ℚ) + (cfgFor mode).penSS ∧
    negInf + (cfgFor mode).penCC + 1 ≤ (9.2 : ℚ) + (cfgFor mode).penSC ∧
    negInf + 1 ≤ (9.2 : ℚ) := by
  unfold cfgFor
  split_ifs <;>
    norm_num [contractCfg, summaryCfg, singleCfg, defaultCfg, negInf]

/-- A non-empty list of non-empty parts flattening to `range n` starts with
a span whose first index is 0. -/
theorem first_span_zero (l : List (List ℕ)) (n : ℕ) (hn : 1 ≤ n)
    (hf : l.flatten = List.range n) (hne : ∀ s ∈ l, s ≠ []) :
    ∃ s t, l = (0 :: s) :: t := by
  obtain ⟨m, rfl⟩ : ∃ m, n = m + 1 := ⟨n - 1, by omega⟩
  cases l with
  | nil =>
    exfalso
    have := congrArg List.length hf
    simp at this
  | cons s0 tl =>
    have hs0 : s0 ≠ [] := hne s0 (List.mem_cons_self _ _)
    cases s0 with
    | nil => exact absurd rfl hs0
    | cons a s0' =>
      refine ⟨s0', tl, ?_⟩
      rw [List.flatten_cons] at hf
      rw [List.range_eq_range', List.range'_succ] at hf
      have : a = 0 := (List.cons.injEq _ _ _ _).mp hf |>.1
      rw [this]

theorem head?_eq_getD (l : List ℕ) (hl : l ≠ []) :
    l.head? = some (l.getD 0 0) := by
  cases l with
  | nil => exact absurd rfl hl
  | cons a t => rfl

/-- When the labeling starts with START, every position has a span head. -/
theorem headOfList_isSome (states : List ℕ) (h0 : states.head? = some 0) :
    ∀ j, j < states.length → ((headOfList states).getD j none).isSome := by
  cases states with
  | nil => simp at h0
  | cons s rest =>
    obtain rfl : s = 0 := by
      simpa using h0
    intro j hj
    unfold headOfList
    simp only [headOfGo, if_pos rfl]
    cases j with
    | zero =>
      rw [List.getD_cons_zero]
      rfl
    | succ k =>
      rw [List.getD_cons_succ]
      exact headOfGo_isSome rest (some 0) 1 k
        (by rw [List.length_cons] at hj; omega) rfl

/-- C2: for every non-empty filtered block list, under every profile and
every embedding matrix, the decoded label of block 0 is START; the optional
cross-encoder pass (with any re-ranker scores) succeeds and never changes
the label of block 0; and the first output span begins at index 0. -/
theorem claim2_first_block_start (mode : String) (cos ce : ℕ → ℕ → ℚ)
    (useCE : Bool) (blocks : List Block)
    (hne : filteredBlocks blocks ≠ []) :
    (pipelineStates (cfgFor mode) cos (filteredBlocks blocks)).head? =
      some 0 ∧
    (∃ st, pipelineStatesCE (cfgFor mode) cos ce useCE
        (filteredBlocks blocks) = some st ∧ st.head? = some 0) ∧
    (∃ r s t, clauseChunk cos ce useCE (cfgFor mode) blocks = some r ∧
      r.spans = (0 :: s) :: t) := by
  have hn : 1 ≤ (filteredBlocks blocks).length := by
    cases hfb : filteredBlocks blocks with
    | nil => exact absurd hfb hne
    | cons b bs => simp
  obtain ⟨hwE, hwH, hwS, hbias, hp1, hp2, hp3⟩ := cfgFor_ok mode
  have hraw := localScores_first (cfgFor mode) cos (filteredBlocks blocks)
    hne hwE hwH hwS
  have hs0 : (9.2 : ℚ) ≤ pipelineSS (cfgFor mode) cos
      (filteredBlocks blocks) 0 := by
    unfold pipelineSS
    rw [if_pos rfl, hbias]
    linarith
  have hhead : (pipelineStates (cfgFor mode) cos
      (filteredBlocks blocks)).head? = some 0 := by
    unfold pipelineStates
    refine dpStates_head _ _ _ _ hn ?_ ?_ ?_
    · show negInf + (cfgFor mode).penCS ≤ _ + (cfgFor mode).penSS
      linarith
    · show negInf + (cfgFor mode).penCC ≤ _ + (cfgFor mode).penSC
      linarith
    · linarith
  have hslen : (pipelineStates (cfgFor mode) cos
      (filteredBlocks blocks)).length = (filteredBlocks blocks).length := by
    unfold pipelineStates
    exact dpStates_length _ _ _ _ hn
  have hsome : ∃ st, pipelineStatesCE (cfgFor mode) cos ce useCE
      (filteredBlocks blocks) = some st ∧ st.head? = some 0 := by
    cases useCE with
    | false =>
      exact ⟨pipelineStates (cfgFor mode) cos (filteredBlocks blocks),
        by simp [pipelineStatesCE], hhead⟩
    | true =>
      have hheads : ∀ t ∈ reviewTriples (cfgFor mode).tieMargin
          (pipelineSS (cfgFor mode) cos (filteredBlocks blocks))
          (pipelineSC (cfgFor mode) cos (filteredBlocks blocks))
          (pipelineStates (cfgFor mode) cos (filteredBlocks blocks)),
          t.2.1.isSome := by
        intro t ht
        obtain ⟨j, h1, _, _, hj4, _⟩ :=
          reviewGo_mem _ _ _ _ _ _ 0 t ht
        rw [h1]
        exact headOfList_isSome _ hhead j (by simpa using hj4)
      obtain ⟨out, hout⟩ := applyReview_some (cfgFor mode).ceDeltaStart
        (cfgFor mode).ceDeltaCont ce _
        (pipelineStates (cfgFor mode) cos (filteredBlocks blocks)) hheads
      refine ⟨out, ?_, ?_⟩
      · simp only [pipelineStatesCE]
        rw [if_pos trivial]
        exact hout
      · have h0 := applyReview_getD _ _ ce _ _ _ 0 0 hout ?_
        · have hlen := applyReview_length _ _ ce _ _ _ hout
          have hone : out ≠ [] := by
            have : 0 < out.length := by omega
            exact List.length_pos.mp this
          rw [head?_eq_getD out hone, h0]
          rw [← head?_eq_getD _ (by
            have : 0 < (pipelineStates (cfgFor mode) cos
                (filteredBlocks blocks)).length := by omega
            exact List.length_pos.mp this)]
          exact hhead
        · intro t ht h0t
          obtain ⟨j, h1, hj1, _, _, _⟩ := reviewGo_mem _ _ _ _ _ _ 0 t ht
          rw [h1] at h0t
          simp only at h0t
          omega
  obtain ⟨st, hst, hsthead⟩ := hsome
  refine ⟨hhead, ⟨st, hst, hsthead⟩, ?_⟩
  have hstlen : st.length = (filteredBlocks blocks).length := by
    revert hst
    cases useCE with
    | false =>
      intro hst
      simp only [pipelineStatesCE] at hst
      rw [if_neg (by simp)] at hst
      obtain rfl := Option.some.inj hst
      exact hslen
    | true =>
      intro hst
      simp only [pipelineStatesCE] at hst
      rw [if_pos trivial] at hst
      unfold tieBreakPass at hst
      rw [applyReview_length _ _ _ _ _ _ hst]
      exact hslen
  have hflat : (postFixSpans cos (filteredBlocks blocks)
      (buildSpans (fun i => st.getD i 0)
        (filteredBlocks blocks).length)).flatten =
      List.range (filteredBlocks blocks).length := by
    rw [postFixSpans_flatten, buildSpans_flatten _ _ hn]
  have hnn : ∀ s ∈ postFixSpans cos (filteredBlocks blocks)
      (buildSpans (fun i => st.getD i 0) (filteredBlocks blocks).length),
      s ≠ [] :=
    postFixSpans_ne _ _ _ (buildSpans_ne _ _)
  obtain ⟨s, t, hspans⟩ := first_span_zero _ _ hn hflat hnn
  refine ⟨⟨postFixSpans cos (filteredBlocks blocks)
      (buildSpans (fun i => st.getD i 0) (filteredBlocks blocks).length),
    (postFixSpans cos (filteredBlocks blocks)
      (buildSpans (fun i => st.getD i 0)
        (filteredBlocks blocks).length)).map
      (spanText (filteredBlocks blocks))⟩, s, t, ?_, hspans⟩
  simp only [clauseChunk]
  rw [if_neg (by omega), hst]

theorem claim2_first_block_start_witness :
    filteredBlocks [⟨"Alpha one", 0, 0, none⟩, ⟨"Beta two", 0, 0, none⟩] ≠
      [] ∧
    ((pipelineStates (cfgFor "summary") (fun _ _ => 0)
        (filteredBlocks
          [⟨"Alpha one", 0, 0, none⟩, ⟨"Beta two", 0, 0, none⟩])).head? =
      some 0 ∧
    (∃ st, pipelineStatesCE (cfgFor "summary") (fun _ _ => 0) (fun _ _ => 0)
        true (filteredBlocks
          [⟨"Alpha one", 0, 0, none⟩, ⟨"Beta two", 0, 0, none⟩]) =
        some st ∧ st.head? = some 0) ∧
    (∃ r s t, clauseChunk (fun _ _ => 0) (fun _ _ => 0) true
        (cfgFor "summary")
        [⟨"Alpha one", 0, 0, none⟩, ⟨"Beta two", 0, 0, none⟩] = some r ∧
      r.spans = (0 :: s) :: t)) :=
  ⟨by decide,
    claim2_first_block_start "summary" (fun _ _ => 0) (fun _ _ => 0) true
      [⟨"Alpha one", 0, 0, none⟩, ⟨"Beta two", 0, 0, none⟩] (by decide)⟩

/-- C5 is refuted: on the DP labeling `[START, START]` obtained from
`startScore = (10, 0)`, `continueScore = (0, 0)` with zero penalties,
position 1 is reviewed (gap 0 ≤ 0.25) and the pair head recorded is
`head_of[1] = 1` — the head of the span containing block 1 itself — while
the claim demands the head of the span of block 0 (which is 0). -/
theorem claim5_counterexample :
    ¬ (∀ t ∈ reviewTriples (0.25 : ℚ)
          (fun i => if i = 0 then (10 : ℚ) else 0) (fun _ => (0 : ℚ))
          (dpStates ⟨0, 0, 0, 0⟩ (fun i => if i = 0 then (10 : ℚ) else 0)
            (fun _ => (0 : ℚ)) 2),
        t.2.1 = (headOfList (dpStates ⟨0, 0, 0, 0⟩
            (fun i => if i = 0 then (10 : ℚ) else 0)
            (fun _ => (0 : ℚ)) 2)).getD (t.2.2 - 1) none) := by
  with_unfolding_all decide

/-- C5 (amended): for every reviewed boundary position `i`, the second text
pair uses `head_of[i]` — the first block of the span containing `i` itself
under the DP labeling (so when the DP labeled `i` as START, the head is `i`,
not the previous span's head); only when `i` is labeled CONTINUE does it
coincide with the head of the span containing `i-1`. -/
theorem claim5_head_pair_own_span (tm : ℚ) (sS sC : ℕ → ℚ) (states : List ℕ)
    (t : ℕ × Option ℕ × ℕ) (ht : t ∈ reviewTriples tm sS sC states) :
    t.2.1 = (headOfList states).getD t.2.2 none ∧
    t.1 = t.2.2 - 1 ∧ 1 ≤ t.2.2 ∧ t.2.2 < states.length ∧
    (states.getD t.2.2 0 ≠ 0 →
      (headOfList states).getD t.2.2 none =
        (headOfList states).getD (t.2.2 - 1) none) := by
  obtain ⟨j, h1, h2, _, h4, _⟩ := reviewGo_mem tm sS sC _ states _ 0 t ht
  subst h1
  refine ⟨rfl, rfl, h2, by simpa using h4, ?_⟩
  intro hcont
  obtain ⟨k, rfl⟩ : ∃ k, j = k + 1 := ⟨j - 1, by omega⟩
  exact headOfGo_cont states none 0 k (by simpa using h4) hcont

theorem claim5_head_pair_own_span_witness :
    ((0, some 0, 1) : ℕ × Option ℕ × ℕ) ∈
        reviewTriples (1 : ℚ) (fun _ => (0 : ℚ)) (fun _ => (0 : ℚ)) [0, 1] ∧
    (some 0 = (headOfList [0, 1]).getD 1 none ∧ 0 = 1 - 1 ∧ 1 ≤ 1 ∧
      1 < ([0, 1] : List ℕ).length ∧
      (([0, 1] : List ℕ).getD 1 0 ≠ 0 →
        (headOfList [0, 1]).getD 1 none =
          (headOfList [0, 1]).getD (1 - 1) none)) :=
  ⟨by with_unfolding_all decide,
    claim5_head_pair_own_span 1 (fun _ => (0 : ℚ)) (fun _ => (0 : ℚ)) [0, 1]
      (0, some 0, 1) (by with_unfolding_all decide)⟩

/-- C6: the tie-break refinement is a frame property on the label array:
position 0 is never altered; any position whose score gap exceeds the tie
margin keeps its DP label; and any reviewed position whose re-ranker delta
lies strictly between `ce_delta_start` and `ce_delta_cont` also keeps the
DP's decision. -/
theorem claim6_tiebreak_frame (cfg : Cfg) (ce : ℕ → ℕ → ℚ) (sS sC : ℕ → ℚ)
    (states out : List ℕ)
    (hout : tieBreakPass cfg ce sS sC states = some out) :
    out.getD 0 0 = states.getD 0 0 ∧
    (∀ i, cfg.tieMargin < |sS i - sC i| → out.getD i 0 = states.getD i 0) ∧
    (∀ i hd, (headOfList states).getD i none = some hd →
      cfg.ceDeltaStart < ce (i - 1) i - ce hd i →
      ce (i - 1) i - ce hd i < cfg.ceDeltaCont →
      out.getD i 0 = states.getD i 0) := by
  unfold tieBreakPass at hout
  refine ⟨?_, ?_, ?_⟩
  · refine applyReview_getD _ _ _ _ _ _ 0 0 hout ?_
    intro t ht h0
    obtain ⟨j, h1, h2, _, _, _⟩ := reviewGo_mem _ _ _ _ states _ 0 t ht
    rw [h1] at h0
    simp only at h0
    omega
  · intro i hgap
    refine applyReview_getD _ _ _ _ _ _ i 0 hout ?_
    intro t ht hti
    obtain ⟨j, h1, _, _, _, h5⟩ := reviewGo_mem _ _ _ _ states _ 0 t ht
    rw [h1] at hti
    simp only at hti
    subst hti
    exact absurd h5 (not_le.mpr hgap)
  · intro i hd hhd hlo hhi
    refine applyReview_getD _ _ _ _ _ _ i 0 hout ?_
    intro t ht hti
    obtain ⟨j, h1, _, _, _, _⟩ := reviewGo_mem _ _ _ _ states _ 0 t ht
    rw [h1] at hti ⊢
    simp only at hti
    subst hti
    exact ⟨hd, by simpa using hhd, hlo, hhi⟩

theorem claim6_tiebreak_frame_witness :
    tieBreakPass contractCfg (fun _ _ => 0) (fun _ => 0) (fun _ => 0) [0, 1] =
        some [0, 1] ∧
    (([0, 1] : List ℕ).getD 0 0 = ([0, 1] : List ℕ).getD 0 0 ∧
      (∀ i, contractCfg.tieMargin < |(fun _ => (0 : ℚ)) i - (fun _ => (0 : ℚ)) i| →
        ([0, 1] : List ℕ).getD i 0 = ([0, 1] : List ℕ).getD i 0) ∧
      (∀ i hd, (headOfList [0, 1]).getD i none = some hd →
        contractCfg.ceDeltaStart <
          (fun _ _ => (0 : ℚ)) (i - 1) i - (fun _ _ => (0 : ℚ)) hd i →
        (fun _ _ => (0 : ℚ)) (i - 1) i - (fun _ _ => (0 : ℚ)) hd i <
          contractCfg.ceDeltaCont →
        ([0, 1] : List ℕ).getD i 0 = ([0, 1] : List ℕ).getD i 0)) :=
  ⟨by with_unfolding_all decide,
    claim6_tiebreak_frame contractCfg (fun _ _ => 0) (fun _ => 0) (fun _ => 0)
      [0, 1] [0, 1] (by with_unfolding_all decide)⟩

theorem claim4_tie_prefers_from_start_witness :
    ((dpF ⟨0, 0, 0, 0⟩ (fun _ => (-1000000000 : ℚ)) (fun _ => (-1000000000 : ℚ)) 0).1 +
        (0 : ℚ) + (-1000000000 : ℚ) =
      (dpF ⟨0, 0, 0, 0⟩ (fun _ => (-1000000000 : ℚ)) (fun _ => (-1000000000 : ℚ)) 0).2 +
        (0 : ℚ) + (-1000000000 : ℚ)) ∧
    btF ⟨0, 0, 0, 0⟩ (fun _ => (-1000000000 : ℚ)) (fun _ => (-1000000000 : ℚ)) 1 0 = 0 ∧
    btF ⟨0, 0, 0, 0⟩ (fun _ => (-1000000000 : ℚ)) (fun _ => (-1000000000 : ℚ)) 1 1 = 0 :=
  ⟨by with_unfolding_all rfl,
    (claim4_tie_prefers_from_start ⟨0, 0, 0, 0⟩ _ _ 1).1
      (by with_unfolding_all rfl),
    (claim4_tie_prefers_from_start ⟨0, 0, 0, 0⟩ _ _ 1).2
      (by with_unfolding_all rfl)⟩

/-! ## DP optimality machinery (C3) -/

theorem tailScore_concat (P : Pens) (sS sC : ℕ → ℚ) :
    ∀ (l : List ℕ) (i prev x : ℕ),
      tailScore P sS sC i prev (l ++ [x]) =
        tailScore P sS sC i prev l + penAt P (l.getLastD prev) x +
          sAt sS sC (i + l.length) x := by
  intro l
  induction l with
  | nil =>
    intro i prev x
    simp only [List.nil_append, tailScore, List.getLastD_nil, List.length_nil,
      Nat.add_zero]
    ring
  | cons c rest ih =>
    intro i prev x
    rw [List.cons_append, tailScore, tailScore, ih, List.getLastD_cons,
      List.length_cons, show i + (rest.length + 1) = i + 1 + rest.length from
        by omega]
    ring

theorem adjScore_concat (P : Pens) (sS sC : ℕ → ℚ) (l : List ℕ)
    (hl : l ≠ []) (x : ℕ) :
    adjScore P sS sC (l ++ [x]) =
      adjScore P sS sC l + penAt P (l.getLastD 0) x +
        sAt sS sC l.length x := by
  match l, hl with
  | c :: l', _ =>
    rw [List.cons_append]
    simp only [adjScore]
    rw [tailScore_concat, List.getLastD_cons, List.length_cons,
      show (1 : ℕ) + l'.length = l'.length + 1 from by omega]
    ring

theorem le_ite_left (a b : ℚ) : a ≤ if a ≥ b then a else b := by
  split_ifs with h
  · exact le_refl a
  · linarith [not_le.mp h]

theorem le_ite_right (a b : ℚ) : b ≤ if a ≥ b then a else b := by
  split_ifs with h
  · exact h
  · exact le_refl b

/-- The two components of the DP recurrence, written out. -/
theorem dpF_succ_fst (P : Pens) (sS sC : ℕ → ℚ) (m : ℕ) :
    (dpF P sS sC (m + 1)).1 =
      if (dpF P sS sC m).1 + P.penSS + sS (m + 1) ≥
          (dpF P sS sC m).2 + P.penCS + sS (m + 1) then
        (dpF P sS sC m).1 + P.penSS + sS (m + 1)
      else (dpF P sS sC m).2 + P.penCS + sS (m + 1) := rfl

theorem dpF_succ_snd (P : Pens) (sS sC : ℕ → ℚ) (m : ℕ) :
    (dpF P sS sC (m + 1)).2 =
      if (dpF P sS sC m).1 + P.penSC + sC (m + 1) ≥
          (dpF P sS sC m).2 + P.penCC + sC (m + 1) then
        (dpF P sS sC m).1 + P.penSC + sC (m + 1)
      else (dpF P sS sC m).2 + P.penCC + sC (m + 1) := rfl

/-- One step of the DP recurrence dominates extending any sequence by one
label. -/
theorem dp_step_le (P : Pens) (sS sC : ℕ → ℚ) (m y x : ℕ) :
    (if y = 0 then (dpF P sS sC m).1 else (dpF P sS sC m).2) + penAt P y x +
        sAt sS sC (m + 1) x ≤
      (if x = 0 then (dpF P sS sC (m + 1)).1 else (dpF P sS sC (m + 1)).2) := by
  rcases eq_or_ne y 0 with rfl | hy <;> rcases eq_or_ne x 0 with rfl | hx
  · rw [if_pos rfl, if_pos rfl, dpF_succ_fst,
      show penAt P 0 0 = P.penSS from rfl,
      show sAt sS sC (m + 1) 0 = sS (m + 1) from rfl]
    exact le_ite_left _ _
  · rw [if_pos rfl, if_neg hx, dpF_succ_snd,
      show penAt P 0 x = if x = 0 then P.penSS else P.penSC from rfl,
      if_neg hx, show sAt sS sC (m + 1) x = if x = 0 then sS (m + 1)
        else sC (m + 1) from rfl, if_neg hx]
    exact le_ite_left _ _
  · rw [if_neg hy, if_pos rfl, dpF_succ_fst,
      show penAt P y 0 = if y = 0 then P.penSS else P.penCS from rfl,
      if_neg hy, show sAt sS sC (m + 1) 0 = sS (m + 1) from rfl]
    exact le_ite_right _ _
  · rw [if_neg hy, if_neg hx, dpF_succ_snd,
      show penAt P y x = if y = 0 then (if x = 0 then P.penSS else P.penSC)
        else (if x = 0 then P.penCS else P.penCC) from rfl,
      if_neg hy, if_neg hx, show sAt sS sC (m + 1) x =
        if x = 0 then sS (m + 1) else sC (m + 1) from rfl, if_neg hx]
    exact le_ite_right _ _

/-- Upper bound: the DP cell dominates the adjusted score of every label
sequence ending in the matching state. -/
theorem adjScore_le_dp (P : Pens) (sS sC : ℕ → ℚ) :
    ∀ (l : List ℕ) (x : ℕ),
      adjScore P sS sC (l ++ [x]) ≤
        (if x = 0 then (dpF P sS sC l.length).1
         else (dpF P sS sC l.length).2) := by
  intro l
  induction l using List.reverseRecOn with
  | nil =>
    intro x
    simp only [List.nil_append, adjScore, tailScore, List.length_nil, dpF]
    split_ifs <;> simp
  | append_singleton M y ih =>
    intro x
    rw [adjScore_concat P sS sC (M ++ [y]) (by simp) x, List.getLastD_concat]
    have hlen : (M ++ [y]).length = M.length + 1 := by simp
    rw [hlen]
    have h1 := ih y
    have h2 := dp_step_le P sS sC M.length y x
    linarith

theorem decode_getLast (bt : ℕ → ℕ → ℕ) :
    ∀ i c, (decodeFrom bt i c).getLastD 0 = c := by
  intro i c
  cases i with
  | zero => rfl
  | succ i =>
    rw [decodeFrom, List.getLastD_concat]

/-- The traceback attains the DP cell value exactly. -/
theorem decode_score (P : Pens) (sS sC : ℕ → ℚ) :
    ∀ i c, adjScore P sS sC (decodeFrom (btF P sS sC) i c) =
      (if c = 0 then (dpF P sS sC i).1 else (dpF P sS sC i).2) := by
  intro i
  induction i with
  | zero =>
    intro c
    simp only [decodeFrom, adjScore, tailScore, dpF]
    split_ifs <;> ring
  | succ i ih =>
    intro c
    rw [decodeFrom,
      adjScore_concat P sS sC _ (decodeFrom_ne _ _ _) c,
      decode_getLast, decodeFrom_length, ih]
    have hbt : btF P sS sC (i + 1) c =
        if c = 0 then
          (if (dpF P sS sC i).1 + P.penSS + sS (i + 1) ≥
              (dpF P sS sC i).2 + P.penCS + sS (i + 1) then 0 else 1)
        else
          (if (dpF P sS sC i).1 + P.penSC + sC (i + 1) ≥
              (dpF P sS sC i).2 + P.penCC + sC (i + 1) then 0 else 1) := by
      unfold btF
      rw [Nat.add_sub_cancel]
    rcases eq_or_ne c 0 with hc | hc
    · rw [if_pos hc] at hbt
      rw [if_pos hc, dpF_succ_fst]
      by_cases hcond : (dpF P sS sC i).1 + P.penSS + sS (i + 1) ≥
          (dpF P sS sC i).2 + P.penCS + sS (i + 1)
      · rw [if_pos hcond] at hbt
        rw [hbt, if_pos hcond, if_pos rfl,
          show penAt P 0 c = if c = 0 then P.penSS else P.penSC from rfl,
          if_pos hc,
          show sAt sS sC (i + 1) c =
            if c = 0 then sS (i + 1) else sC (i + 1) from rfl,
          if_pos hc]
      · rw [if_neg hcond] at hbt
        rw [hbt, if_neg hcond, if_neg one_ne_zero,
          show penAt P 1 c = if c = 0 then P.penCS else P.penCC from rfl,
          if_pos hc,
          show sAt sS sC (i + 1) c =
            if c = 0 then sS (i + 1) else sC (i + 1) from rfl,
          if_pos hc]
    · rw [if_neg hc] at hbt
      rw [if_neg hc, dpF_succ_snd]
      by_cases hcond : (dpF P sS sC i).1 + P.penSC + sC (i + 1) ≥
          (dpF P sS sC i).2 + P.penCC + sC (i + 1)
      · rw [if_pos hcond] at hbt
        rw [hbt, if_pos hcond, if_pos rfl,
          show penAt P 0 c = if c = 0 then P.penSS else P.penSC from rfl,
          if_neg hc,
          show sAt sS sC (i + 1) c =
            if c = 0 then sS (i + 1) else sC (i + 1) from rfl,
          if_neg hc]
      · rw [if_neg hcond] at hbt
        rw [hbt, if_neg hcond, if_neg one_ne_zero,
          show penAt P 1 c = if c = 0 then P.penCS else P.penCC from rfl,
          if_neg hc,
          show sAt sS sC (i + 1) c =
            if c = 0 then sS (i + 1) else sC (i + 1) from rfl,
          if_neg hc]

theorem maxPen_nonneg (P : Pens) : 0 ≤ maxPen P :=
  le_trans (abs_nonneg P.penSS) (le_trans (le_max_left _ _) (le_max_left _ _))

theorem penAt_abs_le (P : Pens) (a b : ℕ) : |penAt P a b| ≤ maxPen P := by
  unfold penAt maxPen
  split_ifs
  · exact le_trans (le_max_left _ _) (le_max_left _ _)
  · exact le_trans (le_max_left _ _) (le_max_right _ _)
  · exact le_trans (le_max_right _ _) (le_max_right _ _)
  · exact le_trans (le_max_right _ _) (le_max_left _ _)

theorem sAt_abs_le (sS sC : ℕ → ℚ) (i c : ℕ) :
    |sAt sS sC i c| ≤ max |sS i| |sC i| := by
  unfold sAt
  split_ifs
  · exact le_max_left _ _
  · exact le_max_right _ _

theorem tailBound_nonneg (P : Pens) (sS sC : ℕ → ℚ) :
    ∀ (m i : ℕ), 0 ≤ tailBound P sS sC i m := by
  intro m
  induction m with
  | zero =>
    intro i
    simp [tailBound]
  | succ m ih =>
    intro i
    rw [tailBound]
    have h1 : (0 : ℚ) ≤ max |sS i| |sC i| :=
      le_trans (abs_nonneg _) (le_max_left _ _)
    have h2 := maxPen_nonneg P
    have h3 := ih (i + 1)
    linarith

theorem tailScore_abs_le (P : Pens) (sS sC : ℕ → ℚ) :
    ∀ (l : List ℕ) (i prev : ℕ),
      |tailScore P sS sC i prev l| ≤ tailBound P sS sC i l.length := by
  intro l
  induction l with
  | nil =>
    intro i prev
    simp [tailScore, tailBound]
  | cons c rest ih =>
    intro i prev
    rw [tailScore, List.length_cons, tailBound]
    have h1 := abs_add (penAt P prev c + sAt sS sC i c)
      (tailScore P sS sC (i + 1) c rest)
    have h2 := abs_add (penAt P prev c) (sAt sS sC i c)
    have h3 := penAt_abs_le P prev c
    have h4 := sAt_abs_le sS sC i c
    have h5 := ih (i + 1) c
    linarith

/-- Every DP cell is dominated by the argmax-selected final cell. -/
theorem dpc_le_argmax (P : Pens) (sS sC : ℕ → ℚ) (m x : ℕ) :
    (if x = 0 then (dpF P sS sC m).1 else (dpF P sS sC m).2) ≤
      (if (if (dpF P sS sC m).1 ≥ (dpF P sS sC m).2 then 0 else 1) = (0 : ℕ)
        then (dpF P sS sC m).1 else (dpF P sS sC m).2) := by
  by_cases hm : (dpF P sS sC m).1 ≥ (dpF P sS sC m).2
  · rw [if_pos hm, if_pos rfl]
    split_ifs
    · exact le_refl _
    · exact hm
  · rw [if_neg hm, if_neg one_ne_zero]
    split_ifs
    · linarith [not_le.mp hm]
    · exact le_refl _

/-- C3 is refuted as stated: because `dp[0][CONTINUE]` is the *finite*
sentinel `-1e9` rather than −∞, a sufficiently negative `startScore[0]`
(here `-2e9`) makes the traceback choose CONTINUE at block 0, so the decoded
sequence is not a START-opening sequence at all and its total score differs
from that of the unique START-opening sequence. -/
theorem claim3_counterexample :
    dpStates ⟨0, 0, 0, 0⟩ (fun _ => (-2000000000 : ℚ)) (fun _ => 0) 1 =
      [1] ∧
    totalScore ⟨0, 0, 0, 0⟩ (fun _ => (-2000000000 : ℚ)) (fun _ => 0) [1] ≠
      totalScore ⟨0, 0, 0, 0⟩ (fun _ => (-2000000000 : ℚ)) (fun _ => 0)
        [0] ∧
    ∀ L : List ℕ, L.length = 1 → L.head? = some 0 → L = [0] := by
  refine ⟨by with_unfolding_all decide, ?_, ?_⟩
  · simp only [totalScore, sAt, tailScore]
    norm_num
  · intro L hlen h0
    cases L with
    | nil => simp at h0
    | cons a t =>
      cases t with
      | nil =>
        obtain rfl : a = 0 := by simpa using h0
        rfl
      | cons b t2 =>
        simp at hlen

/-- C3 (amended): the DP decode is optimal among START-opening label
sequences *provided* `startScore[0]` clears the finite `-1e9` sentinel by
more than twice the magnitude bound of the remaining positions and
transitions (true for every realistically bounded score array): then the
decoded sequence has length `n`, starts with START, uses only the labels
START/CONTINUE, and its total score is maximal among all label sequences
with `label[0] = START`.  Without that bound the claim is false
(`claim3_counterexample`). -/
theorem claim3_dp_optimal_bounded (P : Pens) (sS sC : ℕ → ℚ) (n : ℕ)
    (hn : 1 ≤ n)
    (hbig : negInf + 2 * tailBound P sS sC 1 (n - 1) < sS 0) :
    (dpStates P sS sC n).length = n ∧
    (dpStates P sS sC n).head? = some 0 ∧
    (∀ x ∈ dpStates P sS sC n, x = 0 ∨ x = 1) ∧
    (∀ L : List ℕ, L.length = n → (∀ x ∈ L, x = 0 ∨ x = 1) →
      L.head? = some 0 →
      totalScore P sS sC L ≤ totalScore P sS sC (dpStates P sS sC n)) := by
  have hS0 : negInf ≤ sS 0 := by
    have := tailBound_nonneg P sS sC (n - 1) 1
    linarith
  have hhead : (dpStates P sS sC n).head? = some 0 := by
    rcases Nat.lt_or_ge n 2 with hlt | hge
    · obtain rfl : n = 1 := by omega
      simp only [dpStates]
      rw [show (1 : ℕ) - 1 = 0 from rfl,
        if_pos (show (dpF P sS sC 0).1 ≥ (dpF P sS sC 0).2 from hS0)]
      rfl
    · obtain ⟨m, hm⟩ : ∃ m, n - 1 = m + 1 := ⟨n - 2, by omega⟩
      have htb : maxPen P ≤ tailBound P sS sC 1 (n - 1) := by
        rw [hm, tailBound]
        have h1 : (0 : ℚ) ≤ max |sS 1| |sC 1| :=
          le_trans (abs_nonneg _) (le_max_left _ _)
        have h2 := tailBound_nonneg P sS sC m 2
        linarith
      have hSS : -maxPen P ≤ P.penSS := by
        have h := penAt_abs_le P 0 0
        rw [show penAt P 0 0 = P.penSS from rfl] at h
        linarith [(abs_le.mp h).1]
      have hSC : -maxPen P ≤ P.penSC := by
        have h := penAt_abs_le P 0 1
        rw [show penAt P 0 1 = P.penSC from rfl] at h
        linarith [(abs_le.mp h).1]
      have hCS : P.penCS ≤ maxPen P := by
        have h := penAt_abs_le P 1 0
        rw [show penAt P 1 0 = P.penCS from rfl] at h
        linarith [(abs_le.mp h).2]
      have hCC : P.penCC ≤ maxPen P := by
        have h := penAt_abs_le P 1 1
        rw [show penAt P 1 1 = P.penCC from rfl] at h
        linarith [(abs_le.mp h).2]
      have hbt : ∀ c, btF P sS sC 1 c = 0 := by
        intro c
        unfold btF
        rw [show (1 : ℕ) - 1 = 0 from rfl]
        have e1 : (dpF P sS sC 0).1 = sS 0 := rfl
        have e2 : (dpF P sS sC 0).2 = negInf := rfl
        rcases eq_or_ne c 0 with hc | hc
        · rw [if_pos hc, if_pos (by rw [e1, e2]; linarith)]
        · rw [if_neg hc, if_pos (by rw [e1, e2]; linarith)]
      unfold dpStates
      exact decodeFrom_head _ hbt (n - 1) _ (by omega)
  refine ⟨dpStates_length P sS sC n hn, hhead, ?_, ?_⟩
  · unfold dpStates
    refine decodeFrom_val P sS sC (n - 1) _ ?_
    split_ifs
    · exact Or.inl rfl
    · exact Or.inr rfl
  · intro L hLlen hLval hL0
    obtain ⟨Dt, hD⟩ : ∃ Dt, dpStates P sS sC n = 0 :: Dt := by
      cases hDs : dpStates P sS sC n with
      | nil =>
        rw [hDs] at hhead
        exact absurd hhead (by simp)
      | cons a t =>
        rw [hDs] at hhead
        obtain rfl : a = 0 := by simpa using hhead
        exact ⟨t, rfl⟩
    obtain ⟨Lt, rfl⟩ : ∃ Lt, L = 0 :: Lt := by
      cases L with
      | nil => simp at hL0
      | cons a t =>
        obtain rfl : a = 0 := by simpa using hL0
        exact ⟨t, rfl⟩
    have hTL : totalScore P sS sC (0 :: Lt) = adjScore P sS sC (0 :: Lt) := by
      simp only [totalScore, adjScore, sAt, eq_self_iff_true, if_true]
    have hTD : totalScore P sS sC (dpStates P sS sC n) =
        adjScore P sS sC (dpStates P sS sC n) := by
      rw [hD]
      simp only [totalScore, adjScore, sAt, eq_self_iff_true, if_true]
    rw [hTL, hTD]
    have hR : adjScore P sS sC (dpStates P sS sC n) =
        (if (if (dpF P sS sC (n - 1)).1 ≥ (dpF P sS sC (n - 1)).2
            then 0 else 1) = (0 : ℕ)
          then (dpF P sS sC (n - 1)).1 else (dpF P sS sC (n - 1)).2) := by
      unfold dpStates
      exact decode_score P sS sC (n - 1) _
    rcases List.eq_nil_or_concat (0 :: Lt) with h | ⟨M, x, hMx⟩
    · exact absurd h (by simp)
    · rw [List.concat_eq_append] at hMx
      have hMlen : M.length = n - 1 := by
        have h := congrArg List.length hMx
        rw [List.length_cons, List.length_append, List.length_singleton] at h
        rw [List.length_cons] at hLlen
        omega
      rw [hMx]
      have h1 := adjScore_le_dp P sS sC M x
      rw [hMlen] at h1
      have h2 := dpc_le_argmax P sS sC (n - 1) x
      rw [hR]
      linarith

theorem claim3_dp_optimal_bounded_witness :
    (1 : ℕ) ≤ 2 ∧
    negInf + 2 * tailBound ⟨0, 0, 0, 0⟩ (fun _ => (1 : ℚ))
        (fun _ => (0 : ℚ)) 1 (2 - 1) < (fun _ => (1 : ℚ)) 0 ∧
    ((dpStates ⟨0, 0, 0, 0⟩ (fun _ => (1 : ℚ)) (fun _ => (0 : ℚ)) 2).length
        = 2 ∧
      (dpStates ⟨0, 0, 0, 0⟩ (fun _ => (1 : ℚ))
        (fun _ => (0 : ℚ)) 2).head? = some 0 ∧
      (∀ x ∈ dpStates ⟨0, 0, 0, 0⟩ (fun _ => (1 : ℚ)) (fun _ => (0 : ℚ)) 2,
        x = 0 ∨ x = 1) ∧
      (∀ L : List ℕ, L.length = 2 → (∀ x ∈ L, x = 0 ∨ x = 1) →
        L.head? = some 0 →
        totalScore ⟨0, 0, 0, 0⟩ (fun _ => (1 : ℚ)) (fun _ => (0 : ℚ)) L ≤
          totalScore ⟨0, 0, 0, 0⟩ (fun _ => (1 : ℚ)) (fun _ => (0 : ℚ))
            (dpStates ⟨0, 0, 0, 0⟩ (fun _ => (1 : ℚ))
              (fun _ => (0 : ℚ)) 2))) :=
  ⟨by decide, by with_unfolding_all decide,
    claim3_dp_optimal_bounded ⟨0, 0, 0, 0⟩ (fun _ => (1 : ℚ))
      (fun _ => (0 : ℚ)) 2 (by decide) (by with_unfolding_all decide)⟩
